import Mathlib

/-!
Verification of the fastcompress pipeline (fc-slow.py).

Strings are embedded as lists of natural-number code points (Python
characters are ASCII here), matrices as lists of rows of integers.
Randomized constructs are embedded either as relations describing the
terminating runs of the corresponding search loop, or as functions
parameterized by explicit oracles standing for the stream of random
draws; every theorem about a randomized component quantifies over all
draws that the Python random module could have produced.
-/

/-! ## The STRONGENCRYPT cipher (s_encrypt, s_decrypt) -/

/-- Encoding of one plaintext character against one key character,
mirroring the three branches of s_encrypt: type A when ord c < ord e - 32,
type B when ord e < ord c - 32, type C otherwise.  The pair is emitted as
tag character then payload character. -/
def encPair (e c : Nat) : List Nat :=
  if c + 32 < e then [65, e - c]
  else if e + 32 < c then [66, c - e]
  else [67, c]

/-- Recursion over the plaintext carrying the character index, mirroring
the enumerate loop of s_encrypt; the key is consumed cyclically. -/
def s_encryptAux (key : List Nat) : Nat → List Nat → List Nat
  | _, [] => []
  | i, c :: rest => encPair (key.getD (i % key.length) 0) c ++ s_encryptAux key (i + 1) rest

/-- Embedding of s_encrypt: deterministic one-pass keyed substitution. -/
def s_encrypt (plaintext key : List Nat) : List Nat :=
  s_encryptAux key 0 plaintext

/-- Candidate plaintext characters that s_decrypt collects for the payload
byte c found at stream index i (an odd index; i / 2 recovers the plaintext
position).  A chr call succeeds exactly when its argument lies in
[0, 1114111], so the difference candidate survives only when c ≤ k and the
sum candidate only when k + c ≤ 1114111; the literal candidate c always
survives. -/
def decryptCands (key : List Nat) (i c : Nat) : List Nat :=
  let k := key.getD (i / 2 % key.length) 0
  (if c ≤ k ∧ k - c ≤ 1114111 then [k - c] else []) ++
    (if k + c ≤ 1114111 then [k + c] else []) ++ [c]

/-- Terminating runs of the s_decrypt retry loop: a run that returns p has
built p by choosing, for each payload byte (the bytes at odd stream
indices; the even-indexed tag bytes are skipped by the loop), one of the
candidates for that byte, and has passed the final check
s_encrypt p key = encrypted that guards the while loop's exit. -/
def s_decryptRel (encrypted key p : List Nat) : Prop :=
  p.length = encrypted.length / 2 ∧
  (∀ j, j < p.length →
    p.getD j 0 ∈ decryptCands key (2 * j + 1) (encrypted.getD (2 * j + 1) 0)) ∧
  s_encrypt p key = encrypted

/-- Decrypt-loop relation as the specification describes it: the payload
bytes are taken from the even stream indices (the odd ones being the tags),
with the candidate set for the payload byte at stream index i computed
from k = key[(i/2) % len(key)].  This is the claimed behavior, to be
compared with s_decryptRel, which embeds the source. -/
def s_decryptRelClaimed (encrypted key p : List Nat) : Prop :=
  p.length = (encrypted.length + 1) / 2 ∧
  (∀ j, j < p.length →
    p.getD j 0 ∈ decryptCands key (2 * j) (encrypted.getD (2 * j) 0)) ∧
  s_encrypt p key = encrypted

theorem encPair_length (e c : Nat) : (encPair e c).length = 2 := by
  unfold encPair
  split <;> [rfl; skip]
  split <;> rfl

theorem encPair_inj (e c c' : Nat) (h : encPair e c = encPair e c') : c = c' := by
  unfold encPair at h
  by_cases h1 : c + 32 < e <;> by_cases h2 : c' + 32 < e <;>
    by_cases h3 : e + 32 < c <;> by_cases h4 : e + 32 < c' <;>
    simp [h1, h2, h3, h4] at h <;> omega

theorem s_encryptAux_inj (key : List Nat) :
    ∀ i p q, s_encryptAux key i p = s_encryptAux key i q → p = q := by
  intro i p
  induction p generalizing i with
  | nil =>
    intro q h
    cases q with
    | nil => rfl
    | cons c rest =>
      exfalso
      have : (s_encryptAux key i []).length = (s_encryptAux key i (c :: rest)).length := by
        rw [h]
      simp [s_encryptAux, encPair_length] at this
      omega
  | cons c rest ih =>
    intro q h
    cases q with
    | nil =>
      exfalso
      have : (s_encryptAux key i (c :: rest)).length = (s_encryptAux key i []).length := by
        rw [h]
      simp [s_encryptAux, encPair_length] at this
    | cons c' rest' =>
      simp only [s_encryptAux] at h
      have hlen : (encPair (key.getD (i % key.length) 0) c).length
          = (encPair (key.getD (i % key.length) 0) c').length := by
        rw [encPair_length, encPair_length]
      obtain ⟨hpair, hrest⟩ := List.append_inj h hlen
      have hc : c = c' := encPair_inj _ _ _ hpair
      have hr : rest = rest' := ih (i + 1) rest' hrest
      rw [hc, hr]

/-- The cipher is injective in the plaintext for every key: distinct
plaintexts produce distinct ciphertexts. -/
theorem s_encrypt_inj (key p q : List Nat) (h : s_encrypt p key = s_encrypt q key) :
    p = q :=
  s_encryptAux_inj key 0 p q h

/-- C3: for every plaintext s and every nonempty key, a terminating run of
s_decrypt on s_encrypt s key returns exactly s: the exit condition of the
retry loop forces the re-encryption of the returned candidate to equal the
ciphertext, and the cipher is injective in the plaintext. -/
theorem decrypt_encrypt_roundtrip (s key p : List Nat) (hkey : key ≠ [])
    (h : s_decryptRel (s_encrypt s key) key p) : p = s := by
  obtain ⟨-, -, henc⟩ := h
  exact s_encrypt_inj key p s henc

/-- Witness for decrypt_encrypt_roundtrip at s = "9", key = "!". -/
theorem decrypt_encrypt_roundtrip_witness :
    ([33] : List Nat) ≠ [] ∧ s_decryptRel (s_encrypt [57] [33]) [33] [57] ∧
      ([57] : List Nat) = [57] := by
  have hrel : s_decryptRel (s_encrypt [57] [33]) [33] [57] := by
    refine ⟨by decide, ?_, by decide⟩
    intro j h
    have h0 : j = 0 := Nat.lt_one_iff.mp (by simpa using h)
    subst h0
    decide
  exact ⟨by decide, hrel, decrypt_encrypt_roundtrip [57] [33] [57] (by decide) hrel⟩

/-- C4 counterexample: on the ciphertext "C9" (codes [67, 57]) produced by
encrypting "9" under the key "!", the terminating run of s_decrypt that
returns "9" satisfies the source relation (payload bytes at odd indices)
but not the claimed relation (payload bytes at even indices): the byte at
index 0 is the tag 67, whose candidate set does not contain 57. -/
theorem decrypt_parity_counterexample :
    s_decryptRel [67, 57] [33] [57] ∧ ¬ s_decryptRelClaimed [67, 57] [33] [57] := by
  constructor
  · refine ⟨by decide, ?_, by decide⟩
    intro j h
    have h0 : j = 0 := Nat.lt_one_iff.mp (by simpa using h)
    subst h0
    decide
  · intro ⟨hlen, hmem, henc⟩
    have := hmem 0 (by simpa using hlen ▸ Nat.zero_lt_one)
    revert this
    decide

/-- C4 amended: in s_decrypt the even-indexed bytes carry the tag (ignored)
and the odd-indexed bytes carry the payload.  For the payload byte c at
stream index i the candidate characters are exactly the representable
members of the list [chr(k - c), chr(k + c), c] with
k = key[(i / 2) % len(key)] (a chr argument is representable when it lies
in [0, 1114111]); a candidate plaintext assembled from them is accepted
only if re-encrypting it reproduces the ciphertext. -/
theorem decrypt_candidates_characterization :
    (∀ (key : List Nat) (i c x : Nat), key ≠ [] →
      (x ∈ decryptCands key i c ↔
        (c ≤ key.getD (i / 2 % key.length) 0 ∧
            key.getD (i / 2 % key.length) 0 - c ≤ 1114111 ∧
            x = key.getD (i / 2 % key.length) 0 - c) ∨
          (key.getD (i / 2 % key.length) 0 + c ≤ 1114111 ∧
            x = key.getD (i / 2 % key.length) 0 + c) ∨
          x = c)) ∧
    (∀ encrypted key p : List Nat, s_decryptRel encrypted key p →
      p.length = encrypted.length / 2 ∧
      (∀ j, j < p.length →
        p.getD j 0 ∈ decryptCands key (2 * j + 1) (encrypted.getD (2 * j + 1) 0)) ∧
      s_encrypt p key = encrypted) := by
  constructor
  · intro key i c x _
    unfold decryptCands
    by_cases h1 : c ≤ key.getD (i / 2 % key.length) 0 ∧
        key.getD (i / 2 % key.length) 0 - c ≤ 1114111 <;>
      by_cases h2 : key.getD (i / 2 % key.length) 0 + c ≤ 1114111 <;>
      simp [h1, h2] <;> tauto
  · intro encrypted key p h
    exact h

/-- Witness for decrypt_candidates_characterization: concrete instances of
both conjuncts, at key "!", stream index 1, payload 57 and at the
terminating decrypt run on ciphertext [67, 57]. -/
theorem decrypt_candidates_characterization_witness :
    (90 ∈ decryptCands [33] 1 57) ∧ s_encrypt [57] [33] = [67, 57] := by
  constructor
  · exact (decrypt_candidates_characterization.1 [33] 1 57 90 (by decide)).mpr (by decide)
  · have hrel : s_decryptRel [67, 57] [33] [57] := by
      refine ⟨by decide, ?_, by decide⟩
      intro j h
      have h0 : j = 0 := Nat.lt_one_iff.mp (by simpa using h)
      subst h0
      decide
    exact (decrypt_candidates_characterization.2 [67, 57] [33] [57] hrel).2.2

/-! ## The securehash table and s_securehash -/

/-- The process-wide securehash table: for i in range(8) and byte in
range(32, 128), entry (b + (b << i) + (b >> i)) % 256 with b = byte ^ 0x55.
Lookups outside the printable range raise a KeyError in the source; the
embedding returns 0 there (no in-range computation depends on it). -/
def table (i byte : Nat) : Nat :=
  if 32 ≤ byte ∧ byte < 128 then
    (Nat.xor byte 85 + Nat.xor byte 85 * 2 ^ i + Nat.xor byte 85 / 2 ^ i) % 256
  else 0

/-- Lower-case hexadecimal digit character for a value below 16. -/
def hexDigit (n : Nat) : Nat := if n < 10 then 48 + n else 87 + n

/-- Two lower-case hexadecimal characters of one byte, as hexlify emits. -/
def hexByte (b : Nat) : List Nat := [hexDigit (b / 16), hexDigit (b % 16)]

/-- Embedding of binascii.hexlify on a byte sequence. -/
def hexlify : List Nat → List Nat
  | [] => []
  | b :: rest => hexByte b ++ hexlify rest

/-- The 16-byte digest state of s_securehash after the accumulation loop:
byte 15 is initialized to the input length and each input byte at position
i is folded into byte i % 15 by xor with its table entry. -/
def s_securehashState (p : List Nat) : List Nat :=
  p.enum.foldl
    (fun hsh ib =>
      hsh.set (ib.1 % 15) (Nat.xor (hsh.getD (ib.1 % 15) 0) (table (ib.1 % 8) ib.2)))
    ((List.replicate 16 0).set 15 p.length)

/-- Embedding of s_securehash: hex digest of the 16-byte state. -/
def s_securehash (p : List Nat) : List Nat :=
  hexlify (s_securehashState p)

theorem hexlify_length : ∀ l : List Nat, (hexlify l).length = 2 * l.length := by
  intro l
  induction l with
  | nil => rfl
  | cons b rest ih => simp [hexlify, hexByte, ih]; omega

theorem hexlify_drop_last : ∀ (l : List Nat) (n : Nat), l.length = n + 1 →
    (hexlify l).drop (2 * n) = hexByte (l.getD n 0) := by
  intro l
  induction l with
  | nil => intro n h; simp at h
  | cons b rest ih =>
    intro n h
    cases n with
    | zero =>
      have : rest = [] := List.eq_nil_of_length_eq_zero (by simpa using h)
      subst this
      simp [hexlify, List.getD]
    | succ m =>
      have hrest : rest.length = m + 1 := by simpa using h
      have h2 : 2 * (m + 1) = (hexByte b).length + 2 * m := by
        simp [hexByte]; omega
      calc (hexlify (b :: rest)).drop (2 * (m + 1))
          = (hexByte b ++ hexlify rest).drop ((hexByte b).length + 2 * m) := by
            rw [h2]; rfl
        _ = (hexlify rest).drop (2 * m) := List.drop_append (2 * m)
        _ = hexByte (rest.getD m 0) := ih m hrest
        _ = hexByte ((b :: rest).getD (m + 1) 0) := by
            simp [List.getD]

theorem securehashState_invariant (p : List Nat) :
    (s_securehashState p).length = 16 ∧ (s_securehashState p).getD 15 0 = p.length := by
  unfold s_securehashState
  generalize hinit : (List.replicate 16 0).set 15 p.length = init
  have hbase : init.length = 16 ∧ init.getD 15 0 = p.length := by
    constructor
    · rw [← hinit]; simp
    · rw [← hinit]
      rw [List.getD_eq_getElem?_getD, List.getElem?_set_self (by simp)]
      rfl
  generalize p.enum = pairs
  clear hinit
  induction pairs generalizing init with
  | nil => exact hbase
  | cons ib rest ih =>
    simp only [List.foldl_cons]
    apply ih
    constructor
    · rw [List.length_set]; exact hbase.1
    · rw [List.getD_eq_getElem?_getD,
        List.getElem?_set_ne (by omega : ib.1 % 15 ≠ 15),
        ← List.getD_eq_getElem?_getD]
      exact hbase.2

/-- C10: for every ASCII string p with characters in [32, 128) and length
at most 255, s_securehash p is a 32-hex-character digest whose final two
hex characters encode the input length exactly: the accumulation loop only
writes digest bytes 0 through 14 (the write index is i mod 15), so byte 15,
set to len(p) before the loop, is never touched. -/
theorem securehash_digest_shape (p : List Nat)
    (hchars : ∀ c ∈ p, 32 ≤ c ∧ c < 128) (hlen : p.length ≤ 255) :
    (s_securehash p).length = 32 ∧ (s_securehash p).drop 30 = hexByte p.length := by
  obtain ⟨hl, hd⟩ := securehashState_invariant p
  constructor
  · rw [s_securehash, hexlify_length, hl]
  · have h30 : (30 : Nat) = 2 * 15 := by norm_num
    rw [s_securehash, h30, hexlify_drop_last _ 15 hl, hd]

/-- Witness for securehash_digest_shape at p = "abcde". -/
theorem securehash_digest_shape_witness :
    (s_securehash [97, 98, 99, 100, 101]).length = 32 ∧
      (s_securehash [97, 98, 99, 100, 101]).drop 30 = hexByte 5 := by
  have := securehash_digest_shape [97, 98, 99, 100, 101] (by decide) (by decide)
  simpa using this

/-! ## The ordering oracle r_sort -/

/-- Result of one random.shuffle call viewed as applying an index
permutation: entry j of the shuffled list is the entry of the old list at
position sigma j. -/
def applyShuffle [Inhabited α] (sigma : List Nat) (l : List α) : List α :=
  sigma.map (fun i => l.getD i default)

/-- The successive states of the clone list in r_sort: the clone is
shuffled in place once per loop iteration, so state k is the composite of
the first k + 1 shuffles applied to the input. -/
def clones [Inhabited α] (sigmas : Nat → List Nat) (lst : List α) : Nat → List α
  | 0 => applyShuffle (sigmas 0) lst
  | n + 1 => applyShuffle (sigmas (n + 1)) (clones sigmas lst n)

/-- The verification predicate of r_sort: the nested loops raise
NotSortedException exactly when some pair i < j has clone j < clone i, so
the clone is returned exactly when no such inversion exists. -/
def noInversions [Inhabited α] [LinearOrder α] (l : List α) : Prop :=
  ∀ i, i < l.length → ∀ j, j < l.length → i < j → ¬ (l.getD j default < l.getD i default)

instance [Inhabited α] [LinearOrder α] (l : List α) : Decidable (noInversions l) := by
  unfold noInversions
  infer_instance

/-- Terminating runs of r_sort: the run returns the state after the first
shuffle that passes the inversion check, every earlier state having failed
it. -/
def r_sortRun [Inhabited α] [LinearOrder α] (sigmas : Nat → List Nat) (lst : List α)
    (k : Nat) (out : List α) : Prop :=
  out = clones sigmas lst k ∧ noInversions out ∧
    ∀ j, j < k → ¬ noInversions (clones sigmas lst j)

theorem applyShuffle_perm [Inhabited α] (sigma : List Nat) (l : List α)
    (h : sigma.Perm (List.range l.length)) : (applyShuffle sigma l).Perm l := by
  have hmap : (applyShuffle sigma l).Perm
      ((List.range l.length).map (fun i => l.getD i default)) :=
    h.map (fun i => l.getD i default)
  have hid : (List.range l.length).map (fun i => l.getD i default) = l := by
    apply List.ext_getElem (by simp)
    intro i h1 h2
    simp [List.getD_eq_getElem?_getD, List.getElem?_eq_getElem h2]
  rwa [hid] at hmap

theorem clones_perm [Inhabited α] (sigmas : Nat → List Nat) (lst : List α)
    (hvalid : ∀ n, (sigmas n).Perm (List.range lst.length)) :
    ∀ k, (clones sigmas lst k).Perm lst := by
  intro k
  induction k with
  | zero => exact applyShuffle_perm _ _ (hvalid 0)
  | succ n ih =>
    have hlen : (clones sigmas lst n).length = lst.length := ih.length_eq
    exact ((applyShuffle_perm _ _ (hlen ▸ hvalid (n + 1))).trans ih)

/-- C6: every terminating run of r_sort, over any sequence of shuffles
(each a permutation of the index range), returns a permutation of the
input list in which no later element is smaller than an earlier one; in
particular it never returns a value that is not a permutation of its
input. -/
theorem r_sort_correct [Inhabited α] [LinearOrder α] (sigmas : Nat → List Nat)
    (lst : List α) (k : Nat) (out : List α)
    (hvalid : ∀ n, (sigmas n).Perm (List.range lst.length))
    (hrun : r_sortRun sigmas lst k out) :
    out.Perm lst ∧
      ∀ i, i < out.length → ∀ j, j < out.length → i < j →
        out.getD i default ≤ out.getD j default := by
  obtain ⟨hout, hsorted, -⟩ := hrun
  refine ⟨hout ▸ clones_perm sigmas lst hvalid k, ?_⟩
  intro i hi j hj hij
  exact not_lt.mp (hsorted i hi j hj hij)

/-- Witness for r_sort_correct: the input [2, 1] with the transposition
shuffle accepted at attempt 0 yields the sorted permutation [1, 2]. -/
theorem r_sort_correct_witness :
    ((clones (fun _ => [1, 0]) ([2, 1] : List Nat) 0 = [1, 2]) ∧
      ([1, 2] : List Nat).Perm [2, 1]) ∧
      ([1, 2] : List Nat).getD 0 default ≤ ([1, 2] : List Nat).getD 1 default := by
  have hvalid : ∀ n, (((fun _ => [1, 0]) : Nat → List Nat) n).Perm
      (List.range ([2, 1] : List Nat).length) := by
    intro n
    show ([1, 0] : List Nat).Perm (List.range ([2, 1] : List Nat).length)
    decide
  have hrun : r_sortRun (fun _ => [1, 0]) ([2, 1] : List Nat) 0 [1, 2] := by
    refine ⟨by decide, by decide, ?_⟩
    intro j hj
    omega
  have h := r_sort_correct (fun _ => [1, 0]) ([2, 1] : List Nat) 0 [1, 2] hvalid hrun
  exact ⟨⟨by decide, h.1⟩, h.2 0 (by decide) 1 (by decide) (by decide)⟩

/-- A terminating run of r_sort is unique: its output is the insertion
sort of the input.  The decoder embedding below therefore uses
List.insertionSort for the r_sort call on the header chunk list. -/
theorem r_sortRun_eq_insertionSort [Inhabited α] [LinearOrder α] (sigmas : Nat → List Nat)
    (lst : List α) (k : Nat) (out : List α)
    (hvalid : ∀ n, (sigmas n).Perm (List.range lst.length))
    (hrun : r_sortRun sigmas lst k out) :
    out = List.insertionSort (· ≤ ·) lst := by
  obtain ⟨hperm, hle⟩ := r_sort_correct sigmas lst k out hvalid hrun
  have hs1 : List.Sorted (· ≤ ·) out := by
    rw [List.Sorted, List.pairwise_iff_getElem]
    intro i j hi hj hij
    have := hle i hi j hj hij
    rwa [List.getD_eq_getElem _ _ hi, List.getD_eq_getElem _ _ hj] at this
  exact List.eq_of_perm_of_sorted (hperm.trans (List.perm_insertionSort (· ≤ ·) lst).symm)
    hs1 (List.sorted_insertionSort (· ≤ ·) lst)

/-- Witness for r_sortRun_eq_insertionSort on the same concrete run. -/
theorem r_sortRun_eq_insertionSort_witness :
    ([1, 2] : List Nat) = List.insertionSort (· ≤ ·) [2, 1] := by
  have hvalid : ∀ n, (((fun _ => [1, 0]) : Nat → List Nat) n).Perm
      (List.range ([2, 1] : List Nat).length) := by
    intro n
    show ([1, 0] : List Nat).Perm (List.range ([2, 1] : List Nat).length)
    decide
  exact r_sortRun_eq_insertionSort (fun _ => [1, 0]) ([2, 1] : List Nat) 0 [1, 2] hvalid
    ⟨by decide, by decide, fun j hj => by omega⟩

/-! ## Matrix algebra: matmul and matdiv -/

/-- Embedding of zip over the unpacked rows of a matrix (Python zip(*b)):
column tuples are produced until the shortest row is exhausted.  The
length of the first row bounds the number of columns, so it serves as
structural fuel. -/
def zipStarAux : Nat → List (List Int) → List (List Int)
  | 0, _ => []
  | fuel + 1, m =>
    if m.isEmpty ∨ m.any (fun r => r.isEmpty) then []
    else (m.map (fun r => r.headD 0)) :: zipStarAux fuel (m.map (fun r => r.tail))

/-- Python zip(*b), the truncating transpose used by matmul. -/
def zipStar (m : List (List Int)) : List (List Int) :=
  zipStarAux (m.headD []).length m

/-- Embedding of matmul: entry (r, c) is the dot product of row r of a
with column c of zip(*b), both zips truncating to the shorter operand. -/
def matmul (a b : List (List Int)) : List (List Int) :=
  a.map (fun r => (zipStar b).map (fun c => (List.zipWith (· * ·) r c).sum))

/-- Number of random candidates matdiv tries for a given bound maxv:
maxv ** 2 * dim[0] * dim[1] + 10. -/
def matdivBlock (d0 d1 v : Nat) : Nat := v ^ 2 * d0 * d1 + 10

/-- The maxv bound in force at flat attempt index t of the matdiv search,
obtained by walking the blocks of attempts for maxv = 1, 2, 3, .... -/
def maxvOfAux (d0 d1 : Nat) (v t : Nat) : Nat :=
  if t < matdivBlock d0 d1 v then v
  else maxvOfAux d0 d1 (v + 1) (t - matdivBlock d0 d1 v)
termination_by t
decreasing_by
  have : 10 ≤ matdivBlock d0 d1 v := by unfold matdivBlock; omega
  omega

/-- The maxv bound at flat attempt index t (the outer loop starts at 1). -/
def maxvOf (d0 d1 t : Nat) : Nat := maxvOfAux d0 d1 1 t

/-- Validity of the random draw at attempt t: the candidate has the shape
of the matrices matdiv builds (len(b[0]) rows of len(b) entries) and its
entries are the outcomes of randint(0, maxv) for the maxv in force at t. -/
def drawOK (b : List (List Int)) (t : Nat) (cand : List (List Int)) : Prop :=
  cand.length = (b.headD []).length ∧
  ∀ r ∈ cand, r.length = b.length ∧
    ∀ v ∈ r, 0 ≤ v ∧ v ≤ (maxvOf b.length (b.headD []).length t : Int)

/-- Search loop of matdiv from attempt t with the given fuel: return the
first drawn candidate whose product with b equals c. -/
def matdivRunAux (draws : Nat → List (List Int)) (c b : List (List Int)) :
    Nat → Nat → Option (List (List Int))
  | _, 0 => none
  | t, fuel + 1 =>
    if matmul (draws t) b = c then some (draws t)
    else matdivRunAux draws c b (t + 1) fuel

/-- Embedding of matdiv as a bounded run over an explicit stream of random
candidate draws: a terminating run of the unbounded Python loop is a run
that succeeds within some finite fuel. -/
def matdivRun (draws : Nat → List (List Int)) (c b : List (List Int)) (fuel : Nat) :
    Option (List (List Int)) :=
  matdivRunAux draws c b 0 fuel

/-- Abstract description of the values a terminating matdiv call can
return: some candidate of the searched shape, with non-negative entries,
whose product with b is c.  Used as the validity interface of the matrix
division oracle in the decompression embedding. -/
def matdivRel (c b cand : List (List Int)) : Prop :=
  cand.length = (b.headD []).length ∧
  (∀ r ∈ cand, r.length = b.length ∧ ∀ v ∈ r, 0 ≤ v) ∧
  matmul cand b = c

theorem maxvOfAux_ge (d0 d1 : Nat) : ∀ t v, v ≤ maxvOfAux d0 d1 v t := by
  intro t
  induction t using Nat.strong_induction_on with
  | _ t ih =>
    intro v
    unfold maxvOfAux
    split
    · exact le_refl v
    · have hblock : 10 ≤ matdivBlock d0 d1 v := by unfold matdivBlock; omega
      have hlt : t - matdivBlock d0 d1 v < t := by omega
      exact le_trans (Nat.le_succ v) (ih _ hlt (v + 1))

theorem matdivRunAux_sound (draws : Nat → List (List Int)) (c b : List (List Int))
    (hdraws : ∀ t, drawOK b t (draws t)) :
    ∀ fuel t cand, matdivRunAux draws c b t fuel = some cand →
      (∀ r ∈ cand, ∀ v ∈ r, 0 ≤ v) ∧ matmul cand b = c := by
  intro fuel
  induction fuel with
  | zero => intro t cand h; exact absurd h (by simp [matdivRunAux])
  | succ n ih =>
    intro t cand h
    rw [matdivRunAux] at h
    split at h
    · rename_i heq
      obtain rfl : draws t = cand := by injection h
      refine ⟨?_, heq⟩
      intro r hr v hv
      exact (((hdraws t).2 r hr).2 v hv).1
    · exact ih (t + 1) cand h

/-- C5: for integer matrices c and positive-integer matrices b of
compatible shape such that some integer matrix a has matmul a b = c, every
terminating run of matdiv (over any valid stream of random candidate
draws) returns a candidate with non-negative integer entries whose product
with b is exactly c — some valid solution, not necessarily the original
factor. -/
theorem matdiv_returns_solution (draws : Nat → List (List Int))
    (c b : List (List Int)) (fuel : Nat) (cand : List (List Int))
    (hb : ∀ r ∈ b, ∀ v ∈ r, 0 < v) (hex : ∃ a, matmul a b = c)
    (hdraws : ∀ t, drawOK b t (draws t))
    (hrun : matdivRun draws c b fuel = some cand) :
    (∀ r ∈ cand, ∀ v ∈ r, 0 ≤ v) ∧ matmul cand b = c :=
  matdivRunAux_sound draws c b hdraws fuel 0 cand hrun

/-- Witness for matdiv_returns_solution: dividing [[1]] by [[1]] with a
draw stream that proposes [[1]] at every attempt succeeds at once. -/
theorem matdiv_returns_solution_witness :
    (∀ r ∈ ([[1]] : List (List Int)), ∀ v ∈ r, 0 ≤ v) ∧
      matmul [[1]] [[1]] = [[1]] := by
  have hdraws : ∀ t, drawOK [[1]] t ((fun _ => [[1]]) t) := by
    intro t
    show drawOK [[1]] t [[1]]
    refine ⟨by decide, ?_⟩
    intro r hr
    refine ⟨by simp at hr; simp [hr], ?_⟩
    intro v hv
    simp at hr
    subst hr
    simp at hv
    subst hv
    refine ⟨by decide, ?_⟩
    have := maxvOfAux_ge ([[1]] : List (List Int)).length
      (([[1]] : List (List Int)).headD []).length t 1
    unfold maxvOf
    exact_mod_cast this
  exact matdiv_returns_solution (fun _ => [[1]]) [[1]] [[1]] 1 [[1]]
    (by decide) ⟨[[1]], by decide⟩ hdraws (by decide)

/-! ## Numeric and string utilities shared by the pipeline -/

/-- Decimal digit emission with explicit fuel: the fuel only serves to
make the recursion structural (division by 10 is not a structural step);
any fuel of at least n steps yields the digits of n. -/
def natDecAux : Nat → Nat → List Nat
  | 0, n => [48 + n % 10]
  | f + 1, n => if n < 10 then [48 + n] else natDecAux f (n / 10) ++ [48 + n % 10]

/-- Decimal digit characters of a natural number, as str produces. -/
def natDec (n : Nat) : List Nat := natDecAux n n

theorem natDecAux_congr : ∀ f g n : Nat, n ≤ f → n ≤ g → natDecAux f n = natDecAux g n := by
  intro f
  induction f with
  | zero =>
    intro g n hf _
    have : n = 0 := by omega
    subst this
    cases g with
    | zero => rfl
    | succ g2 => simp [natDecAux]
  | succ f2 ih =>
    intro g n hf hg
    cases g with
    | zero =>
      have : n = 0 := by omega
      subst this
      simp [natDecAux]
    | succ g2 =>
      simp only [natDecAux]
      split
      · rfl
      · rename_i h10
        have hdiv : n / 10 ≤ f2 := le_trans (by omega : n / 10 ≤ f2 + 1 - 1) (le_refl _)
        have hdiv' : n / 10 ≤ g2 := by
          have : n / 10 < n := Nat.div_lt_self (by omega) (by omega)
          omega
        have hdiv2 : n / 10 ≤ f2 := by
          have : n / 10 < n := Nat.div_lt_self (by omega) (by omega)
          omega
        rw [ih g2 (n / 10) hdiv2 hdiv']

/-- The defining recurrence of natDec: one digit below 10, otherwise the
digits of n / 10 followed by the last digit. -/
theorem natDec_eq (n : Nat) :
    natDec n = if n < 10 then [48 + n] else natDec (n / 10) ++ [48 + n % 10] := by
  unfold natDec
  cases hn : n with
  | zero => simp [natDecAux]
  | succ m =>
    simp only [natDecAux]
    split
    · rfl
    · rename_i h10
      have : (m + 1) / 10 < m + 1 := Nat.div_lt_self (by omega) (by omega)
      rw [natDecAux_congr m ((m + 1) / 10) ((m + 1) / 10) (by omega) (le_refl _)]

/-- Python str of an integer: a minus sign followed by the decimal digits
for negatives, the decimal digits otherwise. -/
def intRepr (z : Int) : List Nat :=
  if z < 0 then 45 :: natDec z.natAbs else natDec z.natAbs

/-- Value of a string of decimal digit characters. -/
def digitsVal (l : List Nat) : Nat :=
  l.foldl (fun a c => 10 * a + (c - 48)) 0

/-- ASCII decimal digit test. -/
def isDigit (c : Nat) : Bool := 48 ≤ c && c ≤ 57

/-- Python str whitespace (stripped by int before parsing). -/
def isSpace (c : Nat) : Bool := c = 32 || c = 9 || c = 10 || c = 13 || c = 11 || c = 12

/-- Continuation of a Python integer-literal digit run: further digits,
with single underscores allowed between digits (an underscore must be
followed by a digit and cannot end the run). -/
def digitsTail : List Nat → Bool
  | [] => true
  | [c] => isDigit c
  | c :: d :: rest2 =>
    if c = 95 then isDigit d && digitsTail rest2
    else isDigit c && digitsTail (d :: rest2)

/-- A Python unsigned integer literal: a digit followed by digitsTail. -/
def udigits : List Nat → Bool
  | [] => false
  | d :: rest => isDigit d && digitsTail rest

/-- Core of the Python int parser, applied to the whitespace-stripped
text: an optional sign then a digit run with underscore grouping. -/
def pyIntCore : List Nat → Option Int
  | [] => none
  | c :: rest =>
    if c = 45 then
      if udigits rest then some (-(digitsVal (rest.filter (fun d => d != 95)) : Int)) else none
    else if c = 43 then
      if udigits rest then some ((digitsVal (rest.filter (fun d => d != 95)) : Int)) else none
    else if udigits (c :: rest) then
      some ((digitsVal ((c :: rest).filter (fun d => d != 95)) : Int))
    else none

/-- Embedding of Python int(s): strip whitespace from both ends, accept an
optional sign and a digit run with underscore grouping, and fail (raise
ValueError) on anything else. -/
def pyInt (s : List Nat) : Option Int :=
  pyIntCore (((s.dropWhile isSpace).reverse.dropWhile isSpace).reverse)

/-- Zero-padded 3-digit rank as s_compress renders it:
a @ then 0 * (3 - len(str(n))) then str(n). -/
def pad3 (n : Nat) : List Nat :=
  List.replicate (3 - (natDec n).length) 48 ++ natDec n

/-- Separator-joined concatenation, as str.join produces. -/
def joinSep : List (List Nat) → List Nat → List Nat
  | [], _ => []
  | [x], _ => x
  | x :: y :: xs, sep => x ++ sep ++ joinSep (y :: xs) sep

/-- Python repr of a row of integers. -/
def reprRow (r : List Int) : List Nat :=
  [91] ++ joinSep (r.map intRepr) [44, 32] ++ [93]

/-- Python repr of a matrix (a list of rows of integers). -/
def reprMat (m : List (List Int)) : List Nat :=
  [91] ++ joinSep (m.map reprRow) [44, 32] ++ [93]

/-! ## Tokens: the escaping performed before chunk extraction -/

/-- Escaping of one encrypted character into a body token:
a @ becomes @000, a newline @999, a slash @998, anything else itself. -/
def escapeTok (c : Nat) : List Nat :=
  if c = 64 then [64, 48, 48, 48]
  else if c = 10 then [64, 57, 57, 57]
  else if c = 47 then [64, 57, 57, 56]
  else [c]

theorem natDec_digits (n : Nat) : ∀ c ∈ natDec n, isDigit c = true := by
  induction n using Nat.strong_induction_on with
  | _ n ih =>
    intro c hc
    rw [natDec_eq] at hc
    split at hc
    · simp at hc
      subst hc
      simp [isDigit] <;> omega
    · rename_i h10
      rw [List.mem_append] at hc
      rcases hc with hc | hc
      · exact ih (n / 10) (Nat.div_lt_self (by omega) (by omega)) c hc
      · simp at hc
        subst hc
        have : n % 10 < 10 := Nat.mod_lt n (by omega)
        simp [isDigit] <;> omega

theorem natDec_ne_nil (n : Nat) : natDec n ≠ [] := by
  rw [natDec_eq]
  split
  · simp
  · simp

theorem digitsVal_append (a b : List Nat) :
    digitsVal (a ++ b) = b.foldl (fun x c => 10 * x + (c - 48)) (digitsVal a) := by
  unfold digitsVal
  rw [List.foldl_append]

theorem digitsVal_natDec (n : Nat) : digitsVal (natDec n) = n := by
  induction n using Nat.strong_induction_on with
  | _ n ih =>
    rw [natDec_eq]
    split
    · simp [digitsVal] <;> omega
    · rename_i h10
      rw [digitsVal_append, ih (n / 10) (Nat.div_lt_self (by omega) (by omega))]
      simp
      have : n % 10 < 10 := Nat.mod_lt n (by omega)
      omega

theorem digitsVal_pad3 (n : Nat) : digitsVal (pad3 n) = n := by
  unfold pad3
  rw [digitsVal_append]
  have : digitsVal (List.replicate (3 - (natDec n).length) 48) = 0 := by
    generalize 3 - (natDec n).length = k
    induction k with
    | zero => rfl
    | succ m ihm =>
      rw [List.replicate_succ]
      unfold digitsVal at ihm ⊢
      simpa using ihm
  rw [this]
  exact digitsVal_natDec n

theorem digitsTail_of_digits (t : List Nat) (h : ∀ c ∈ t, isDigit c = true) :
    digitsTail t = true := by
  induction t with
  | nil => rfl
  | cons c rest ihr =>
    have hc := h c (by simp)
    have hc95 : c ≠ 95 := by
      intro habs
      rw [habs] at hc
      simp [isDigit] at hc
    cases rest with
    | nil => simpa [digitsTail] using hc
    | cons d rest2 =>
      rw [digitsTail, if_neg hc95, hc]
      simp
      exact ihr (fun x hx => h x (by simp at hx ⊢; tauto))

theorem pyInt_digits (t : List Nat) (hne : t ≠ []) (h : ∀ c ∈ t, isDigit c = true) :
    pyInt t = some (digitsVal t) := by
  have hnospace : ∀ c ∈ t, isSpace c = false := by
    intro c hc
    have := h c hc
    simp [isDigit] at this
    simp [isSpace]
    omega
  have hdrop1 : t.dropWhile isSpace = t := by
    cases t with
    | nil => rfl
    | cons c rest =>
      rw [List.dropWhile_cons, hnospace c (by simp)]
      simp
  have hdrop2 : (t.reverse.dropWhile isSpace) = t.reverse := by
    cases hrev : t.reverse with
    | nil => rfl
    | cons c rest =>
      rw [List.dropWhile_cons]
      have hc : c ∈ t := by
        have : c ∈ t.reverse := by rw [hrev]; simp
        simpa using this
      rw [hnospace c hc]
      simp
  unfold pyInt
  rw [hdrop1, hdrop2, List.reverse_reverse]
  cases t with
  | nil => exact absurd rfl hne
  | cons c rest =>
    have hc := h c (by simp)
    have hc45 : c ≠ 45 := by
      intro habs; rw [habs] at hc; simp [isDigit] at hc
    have hc43 : c ≠ 43 := by
      intro habs; rw [habs] at hc; simp [isDigit] at hc
    have hud : udigits (c :: rest) = true := by
      rw [udigits, hc]
      simp
      exact digitsTail_of_digits rest (fun d hd => h d (by simp [hd]))
    have hfilter : (c :: rest).filter (fun d => d != 95) = c :: rest := by
      apply List.filter_eq_self.mpr
      intro d hd
      have := h d hd
      simp [isDigit] at this
      simp
      omega
    rw [pyIntCore, if_neg hc45, if_neg hc43, hud]
    simp
    rw [hfilter]

/-! ## The compression scan (s_compress) -/

/-- Accumulated output of the token scan of s_compress: the per-chunk HEAD
entries, the BODY parts, the FOOT checksums and the extracted chunk list
l_chunks, all in the order the loop appends them. -/
structure ScanOut where
  hd : List (List Nat)
  bd : List (List Nat)
  ft : List (List Nat)
  lc : List (List (List Nat))

/-- The seed matrix of the matrix-substitution branch: rows [0,0,0],
[1,2,3], [3,2,1], with the first row overwritten by the escape digits each
offset by 10 when the token is an escape, or by the token's character code
in the top-left cell otherwise. -/
def lst1For (tok : List Nat) : List (List Int) :=
  match tok with
  | 64 :: digs => [digs.map (fun d => ((d - 48 : Nat) : Int) + 10), [1, 2, 3], [3, 2, 1]]
  | _ => [[((tok.headD 0 : Nat) : Int), 0, 0], [1, 2, 3], [3, 2, 1]]

/-- A matrix-substituted BODY part: slash, repr of seed times matrix key,
slash. -/
def matPart (m : List (List Int)) (tok : List Nat) : List Nat :=
  47 :: (reprMat (matmul (lst1For tok) m) ++ [47])

/-- A dictionary placeholder BODY part: @ then the zero-padded number. -/
def refPart (n : Nat) : List Nat := 64 :: pad3 n

/-- The scan loop of s_compress over the remaining tokens, carrying the
absolute token index i and the chunk counter.  When 997 chunks have been
extracted the loop breaks, silently dropping every remaining token.  A
chunk is taken when more than 5 tokens remain and the chunk draw fires;
otherwise the matrix draw may fire; otherwise the token passes through.
The draws random.random() > 0.8 are embedded as the Boolean oracles cq
and mq indexed by the token position i. -/
def scanLoopF (cq mq : Nat → Bool) (m : List (List Int)) :
    Nat → Nat → Nat → List (List Nat) → ScanOut
  | _, _, _, [] => ⟨[], [], [], []⟩
  | 0, _, _, _ :: _ => ⟨[], [], [], []⟩
  | f + 1, i, chunks, t :: rest =>
    if 997 ≤ chunks then ⟨[], [], [], []⟩
    else if 5 < (t :: rest).length ∧ cq i = true then
      let chunk := (t :: rest).take 5
      let r := scanLoopF cq mq m f (i + 5) (chunks + 1) ((t :: rest).drop 5)
      ⟨(chunk.join ++ [47]) :: r.hd, refPart (chunks + 1) :: r.bd,
        s_securehash ((chunk ++ chunk ++ chunk).join) :: r.ft, chunk :: r.lc⟩
    else if mq i = true then
      let r := scanLoopF cq mq m f (i + 1) chunks rest
      ⟨r.hd, matPart m t :: r.bd, r.ft, r.lc⟩
    else
      let r := scanLoopF cq mq m f (i + 1) chunks rest
      ⟨r.hd, t :: r.bd, r.ft, r.lc⟩

/-- The scan of s_compress, run with fuel equal to the token count (the
loop advances by at least one token per iteration, so this fuel is never
exhausted; the fueled form keeps the recursion structural). -/
def scanLoop (cq mq : Nat → Bool) (m : List (List Int))
    (i chunks : Nat) (toks : List (List Nat)) : ScanOut :=
  scanLoopF cq mq m toks.length i chunks toks

theorem scanLoopF_congr (cq mq : Nat → Bool) (m : List (List Int)) :
    ∀ f g i chunks toks, toks.length ≤ f → toks.length ≤ g →
      scanLoopF cq mq m f i chunks toks = scanLoopF cq mq m g i chunks toks := by
  intro f
  induction f with
  | zero =>
    intro g i chunks toks hf _
    have : toks = [] := List.eq_nil_of_length_eq_zero (by omega)
    subst this
    cases g <;> rfl
  | succ f2 ih =>
    intro g i chunks toks hf hg
    cases toks with
    | nil => cases g <;> rfl
    | cons t rest =>
      cases g with
      | zero => simp at hg
      | succ g2 =>
        simp only [scanLoopF]
        have hlen : (t :: rest).length = rest.length + 1 := by simp
        split
        · rfl
        · split
          · rw [ih g2 (i + 5) (chunks + 1) ((t :: rest).drop 5)
              (by simp; omega) (by simp; omega)]
          · split
            · rw [ih g2 (i + 1) chunks rest (by simp at hf; omega) (by simp at hg; omega)]
            · rw [ih g2 (i + 1) chunks rest (by simp at hf; omega) (by simp at hg; omega)]

/-- The defining recurrence of the scan on a nonempty token list. -/
theorem scanLoop_cons (cq mq : Nat → Bool) (m : List (List Int))
    (i chunks : Nat) (t : List Nat) (rest : List (List Nat)) :
    scanLoop cq mq m i chunks (t :: rest) =
      if 997 ≤ chunks then ⟨[], [], [], []⟩
      else if 5 < (t :: rest).length ∧ cq i = true then
        let chunk := (t :: rest).take 5
        let r := scanLoop cq mq m (i + 5) (chunks + 1) ((t :: rest).drop 5)
        ⟨(chunk.join ++ [47]) :: r.hd, refPart (chunks + 1) :: r.bd,
          s_securehash ((chunk ++ chunk ++ chunk).join) :: r.ft, chunk :: r.lc⟩
      else if mq i = true then
        let r := scanLoop cq mq m (i + 1) chunks rest
        ⟨r.hd, matPart m t :: r.bd, r.ft, r.lc⟩
      else
        let r := scanLoop cq mq m (i + 1) chunks rest
        ⟨r.hd, t :: r.bd, r.ft, r.lc⟩ := by
  unfold scanLoop
  simp only [List.length_cons]
  simp only [scanLoopF]
  simp only [List.length_cons]
  split
  · rfl
  · split
    · rw [scanLoopF_congr cq mq m rest.length ((t :: rest).drop 5).length (i + 5) (chunks + 1)
        ((t :: rest).drop 5) (by simp) (le_refl _)]
    · split
      · rw [scanLoopF_congr cq mq m rest.length rest.length (i + 1) chunks rest
          (le_refl _) (le_refl _)]
      · rw [scanLoopF_congr cq mq m rest.length rest.length (i + 1) chunks rest
          (le_refl _) (le_refl _)]

theorem scanLoop_nil (cq mq : Nat → Bool) (m : List (List Int)) (i chunks : Nat) :
    scanLoop cq mq m i chunks [] = ⟨[], [], [], []⟩ := rfl

/-- Comparison key used to reorder the extracted chunks: the pair of the
chunk (a list of token strings, compared lexicographically as Python
compares lists) and the extraction index as tie-break, exactly the key
(x[1], x[0]) passed to sorted. -/
def chunkKeyLe (a b : Nat × List (List Nat)) : Prop :=
  a.2 < b.2 ∨ (a.2 = b.2 ∧ a.1 ≤ b.1)

instance : DecidableRel chunkKeyLe := by
  intro a b
  unfold chunkKeyLe
  infer_instance

/-- The sorted enumerate of l_chunks.  Python's sorted is a stable sort,
and the keys (chunk, index) are pairwise distinct, so its output is the
unique chunkKeyLe-sorted permutation, here computed by insertion sort. -/
def sortedIndices (lc : List (List (List Nat))) : List (Nat × List (List Nat)) :=
  List.insertionSort chunkKeyLe lc.enum

/-- The reordering pass of s_compress on one BODY part: parts starting
with @ have their numeric tail parsed; if some sorted position cv holds
the extraction index rest - 1, the part is rewritten to @ plus the
zero-padded sorted rank cv + 1; otherwise (escape codes, whose values 0,
998, 999 never match an extraction index) the part is unchanged.  The
Python loop scans all cv and keeps the last match; extraction indices are
pairwise distinct, so the first match is the only one. -/
def rewritePart (indices : List (Nat × List (List Nat))) (part : List Nat) : List Nat :=
  match part with
  | 64 :: tail =>
    match pyInt tail with
    | some rest =>
      match (List.range indices.length).find?
          (fun cv => (((indices.getD cv (0, [])).1 : Int)) == rest - 1) with
      | some cv => 64 :: pad3 (cv + 1)
      | none => part
    | none => part
  | _ => part

/-- The body reordering pass of s_compress (lines 153-159). -/
def rewriteRefs (lc : List (List (List Nat))) (body : List (List Nat)) : List (List Nat) :=
  body.map (rewritePart (sortedIndices lc))

/-- The three-part artifact assembled by s_compress, kept as parts lists:
HEAD is the version, the key, the matrix key and one entry per chunk;
BODY is the part list after reference rewriting; FOOT one checksum per
chunk. -/
structure CompressOut where
  headParts : List (List Nat)
  bodyParts : List (List Nat)
  footParts : List (List Nat)
  lChunks : List (List (List Nat))

/-- The version prefix 001. -/
def versionPart : List Nat := [48, 48, 49]

/-- The five literal encryption keys s_compress chooses among. -/
def keyChoices : List (List Nat) :=
  [[33, 119, 101, 115, 33],
   [33, 119, 101, 115, 108, 101, 121, 33],
   [33, 115, 99, 111, 116, 116, 33],
   [33, 119, 115, 99, 111, 116, 116, 33],
   [33, 110, 111, 114, 116, 104, 98, 97, 110, 107, 33]]

/-- Validity of the per-document random choices of s_compress: the key is
one of the five literals and the matrix encryptor is 3 x 3 with entries
drawn by randint(1, 3). -/
def ValidCompressChoices (key : List Nat) (mkey : List (List Int)) : Prop :=
  key ∈ keyChoices ∧ mkey.length = 3 ∧
    ∀ r ∈ mkey, r.length = 3 ∧ ∀ v ∈ r, 1 ≤ v ∧ v ≤ 3

/-- Embedding of s_compress up to rendering: encrypt, escape, scan,
rewrite the body references to sorted ranks.  The random key choice, the
random matrix and the two random() draws per position are explicit
parameters. -/
def s_compressParts (key : List Nat) (mkey : List (List Int)) (cq mq : Nat → Bool)
    (plaintext : List Nat) : CompressOut :=
  let toks := (s_encrypt plaintext key).map escapeTok
  let out := scanLoop cq mq mkey 0 0 toks
  ⟨[versionPart, key ++ [47], reprMat mkey ++ [47]] ++ out.hd,
    rewriteRefs out.lc out.bd, out.ft, out.lc⟩

/-- Embedding of s_compress: the rendered artifact
HEAD newline BODY newline FOOT. -/
def s_compress (key : List Nat) (mkey : List (List Int)) (cq mq : Nat → Bool)
    (plaintext : List Nat) : List Nat :=
  let a := s_compressParts key mkey cq mq plaintext
  a.headParts.join ++ 10 :: (a.bodyParts.join ++ 10 :: a.footParts.join)

theorem scanLoopF_head_foot (cq mq : Nat → Bool) (m : List (List Int)) :
    ∀ f i chunks toks,
      (scanLoopF cq mq m f i chunks toks).hd =
        (scanLoopF cq mq m f i chunks toks).lc.map (fun ch => ch.join ++ [47]) ∧
      (scanLoopF cq mq m f i chunks toks).ft =
        (scanLoopF cq mq m f i chunks toks).lc.map
          (fun ch => s_securehash ((ch ++ ch ++ ch).join)) := by
  intro f
  induction f with
  | zero =>
    intro i chunks toks
    cases toks <;> simp [scanLoopF]
  | succ f2 ih =>
    intro i chunks toks
    cases toks with
    | nil => simp [scanLoopF]
    | cons t rest =>
      simp only [scanLoopF]
      split
      · simp
      · split
        · obtain ⟨ih1, ih2⟩ := ih (i + 5) (chunks + 1) ((t :: rest).drop 5)
          simp at ih1 ih2
          simp [ih1, ih2]
        · split
          · obtain ⟨ih1, ih2⟩ := ih (i + 1) chunks rest
            simp at ih1 ih2 ⊢
            exact ⟨ih1, ih2⟩
          · obtain ⟨ih1, ih2⟩ := ih (i + 1) chunks rest
            simp at ih1 ih2 ⊢
            exact ⟨ih1, ih2⟩

/-- C2 counterexample: a concrete reachable run of s_compress (key
!wes!, all-ones matrix key, chunk draws firing at token positions 0 and 5,
no matrix draws) on the plaintext AAAAAA extracts the chunks CAA6A and
then $A2CA, and its HEAD lists them in that extraction order, which is not
non-decreasing: the dictionary entries of the artifact are not in final
sorted order. -/
theorem compress_head_order_counterexample :
    ValidCompressChoices [33, 119, 101, 115, 33] [[1, 1, 1], [1, 1, 1], [1, 1, 1]] ∧
    (s_compressParts [33, 119, 101, 115, 33] [[1, 1, 1], [1, 1, 1], [1, 1, 1]]
        (fun i => i == 0 || i == 5) (fun _ => false)
        [65, 65, 65, 65, 65, 65]).headParts.drop 3 =
      [[67, 65, 65, 54, 65, 47], [36, 65, 50, 67, 65, 47]] ∧
    ¬ ([67, 65, 65, 54, 65, 47] : List Nat) ≤ [36, 65, 50, 67, 65, 47] := by
  refine ⟨⟨by decide, by decide, ?_⟩, by decide, by decide⟩
  intro r hr
  fin_cases hr <;> exact ⟨by decide, by intro v hv; fin_cases hv <;> decide⟩

/-- C2 amended: for every input and every outcome of the random draws, the
artifact of s_compress lists its dictionary chunk texts in HEAD in
extraction order (not sorted order: the reordering pass only rewrites BODY
references), and FOOT holds exactly one checksum per HEAD entry, in that
same extraction order, the k-th checksum hashing the k-th chunk's text
tripled. -/
theorem compress_head_foot_extraction_order (key : List Nat) (mkey : List (List Int))
    (cq mq : Nat → Bool) (s : List Nat) :
    (s_compressParts key mkey cq mq s).headParts.drop 3 =
      (s_compressParts key mkey cq mq s).lChunks.map (fun ch => ch.join ++ [47]) ∧
    (s_compressParts key mkey cq mq s).footParts =
      (s_compressParts key mkey cq mq s).lChunks.map
        (fun ch => s_securehash ((ch ++ ch ++ ch).join)) := by
  unfold s_compressParts
  simp only []
  obtain ⟨h1, h2⟩ := scanLoopF_head_foot cq mq mkey ((s_encrypt s key).map escapeTok).length
    0 0 ((s_encrypt s key).map escapeTok)
  constructor
  · show ([versionPart, key ++ [47], reprMat mkey ++ [47]] ++ _).drop 3 = _
    rw [show (3 : Nat) = ([versionPart, key ++ [47], reprMat mkey ++ [47]]).length + 0 by simp,
      List.drop_append, List.drop_zero]
    exact h1
  · exact h2

/-! ## Dictionary invariants of the artifact (C7) -/

/-- Shape of the body tokens produced by escaping: one of the three
reserved escape codes, or a single character other than @, newline and
slash. -/
def IsTok (t : List Nat) : Prop :=
  t = [64, 48, 48, 48] ∨ t = [64, 57, 57, 57] ∨ t = [64, 57, 57, 56] ∨
    ∃ c, c ≠ 64 ∧ c ≠ 10 ∧ c ≠ 47 ∧ t = [c]

theorem escapeTok_isTok (c : Nat) : IsTok (escapeTok c) := by
  unfold escapeTok IsTok
  by_cases h64 : c = 64
  · simp [h64]
  · by_cases h10 : c = 10
    · simp [h64, h10]
    · by_cases h47 : c = 47
      · simp [h64, h10, h47]
      · simp [h64, h10, h47]
        exact ⟨c, h64, h10, h47, rfl⟩

theorem scanLoopF_lc_length (cq mq : Nat → Bool) (m : List (List Int)) :
    ∀ f i chunks toks, (scanLoopF cq mq m f i chunks toks).lc.length ≤ 997 - chunks := by
  intro f
  induction f with
  | zero =>
    intro i chunks toks
    cases toks <;> simp [scanLoopF]
  | succ f2 ih =>
    intro i chunks toks
    cases toks with
    | nil => simp [scanLoopF]
    | cons t rest =>
      simp only [scanLoopF]
      split
      · simp
      · rename_i hch
        split
        · have := ih (i + 5) (chunks + 1) ((t :: rest).drop 5)
          simp at this ⊢
          omega
        · split
          · exact ih (i + 1) chunks rest
          · exact ih (i + 1) chunks rest

theorem scanLoop_bd_parts (cq mq : Nat → Bool) (m : List (List Int)) :
    ∀ n toks i chunks, toks.length ≤ n → (∀ tok ∈ toks, IsTok tok) →
      ∀ part ∈ (scanLoop cq mq m i chunks toks).bd,
        (∃ k, chunks < k ∧ k ≤ chunks + (scanLoop cq mq m i chunks toks).lc.length ∧
          part = refPart k) ∨
        (∃ tok, IsTok tok ∧ (part = tok ∨ part = matPart m tok)) := by
  intro n
  induction n with
  | zero =>
    intro toks i chunks hlen htok part hpart
    have : toks = [] := List.eq_nil_of_length_eq_zero (by omega)
    subst this
    simp [scanLoop_nil] at hpart
  | succ n2 ih =>
    intro toks i chunks hlen htok part hpart
    cases toks with
    | nil => simp [scanLoop_nil] at hpart
    | cons t rest =>
      rw [scanLoop_cons] at hpart ⊢
      by_cases h997 : 997 ≤ chunks
      · simp only [if_pos h997] at hpart
        simp at hpart
      · simp only [if_neg h997] at hpart ⊢
        by_cases hcq : 5 < (t :: rest).length ∧ cq i = true
        · simp only [if_pos hcq] at hpart ⊢
          simp only [List.mem_cons] at hpart
          have hdrop : ∀ tok ∈ (t :: rest).drop 5, IsTok tok := by
            intro tok htk
            exact htok tok (List.mem_of_mem_drop htk)
          have hdlen : ((t :: rest).drop 5).length ≤ n2 := by
            simp at hlen ⊢
            omega
          rcases hpart with hpart | hpart
          · left
            refine ⟨chunks + 1, by omega, ?_, hpart⟩
            simp
          · rcases ih ((t :: rest).drop 5) (i + 5) (chunks + 1) hdlen hdrop part hpart with
              ⟨k, hk1, hk2, hk3⟩ | h
            · left
              refine ⟨k, by omega, ?_, hk3⟩
              simp at hk2 ⊢
              omega
            · right
              exact h
        · simp only [if_neg hcq] at hpart ⊢
          have hrlen : rest.length ≤ n2 := by simp at hlen; omega
          have hrtok : ∀ tok ∈ rest, IsTok tok := fun tok htk => htok tok (by simp [htk])
          by_cases hmq : mq i = true
          · simp only [if_pos hmq] at hpart ⊢
            simp only [List.mem_cons] at hpart
            rcases hpart with hpart | hpart
            · right
              exact ⟨t, htok t (by simp), Or.inr hpart⟩
            · rcases ih rest (i + 1) chunks hrlen hrtok part hpart with ⟨k, hk1, hk2, hk3⟩ | h
              · left
                exact ⟨k, hk1, hk2, hk3⟩
              · right
                exact h
          · simp only [if_neg hmq] at hpart ⊢
            simp only [List.mem_cons] at hpart
            rcases hpart with hpart | hpart
            · right
              exact ⟨t, htok t (by simp), Or.inl hpart⟩
            · rcases ih rest (i + 1) chunks hrlen hrtok part hpart with ⟨k, hk1, hk2, hk3⟩ | h
              · left
                exact ⟨k, hk1, hk2, hk3⟩
              · right
                exact h

theorem pad3_digits (n : Nat) : ∀ c ∈ pad3 n, isDigit c = true := by
  intro c hc
  unfold pad3 at hc
  rw [List.mem_append] at hc
  rcases hc with hc | hc
  · rw [List.eq_of_mem_replicate hc]
    decide
  · exact natDec_digits n c hc

theorem pad3_ne_nil (n : Nat) : pad3 n ≠ [] := by
  unfold pad3
  intro h
  rw [List.append_eq_nil] at h
  exact natDec_ne_nil n h.2

theorem pyInt_pad3 (n : Nat) : pyInt (pad3 n) = some n := by
  rw [pyInt_digits (pad3 n) (pad3_ne_nil n) (pad3_digits n), digitsVal_pad3]

theorem sortedIndices_length (lc : List (List (List Nat))) :
    (sortedIndices lc).length = lc.length := by
  unfold sortedIndices
  rw [(List.perm_insertionSort chunkKeyLe lc.enum).length_eq, List.enum_length]

theorem rewritePart_cases (lc : List (List (List Nat))) (part : List Nat) :
    rewritePart (sortedIndices lc) part = part ∨
      ∃ cv, cv < lc.length ∧ rewritePart (sortedIndices lc) part = 64 :: pad3 (cv + 1) := by
  unfold rewritePart
  cases part with
  | nil => left; rfl
  | cons c tail =>
    by_cases hc : c = 64
    · subst hc
      cases hint : pyInt tail with
      | none => left; simp only [hint]
      | some rest =>
        cases hfind : (List.range (sortedIndices lc).length).find?
            (fun cv => (((sortedIndices lc).getD cv (0, [])).1 : Int) == rest - 1) with
        | none => left; simp only [hint, hfind]
        | some cv =>
          right
          refine ⟨cv, ?_, by simp only [hint, hfind]⟩
          have := List.mem_of_find?_eq_some hfind
          rw [List.mem_range, sortedIndices_length] at this
          exact this
    · left
      cases tail <;> simp [hc]

/-- C7: for every input and every outcome of the random draws, the
artifact of s_compress has at most 997 dictionary chunks; HEAD carries one
dictionary entry and FOOT one checksum per chunk (so their counts match);
and every BODY part of the form @NNN either carries one of the three
reserved escape values 000, 998, 999 or is a dictionary back-reference
whose rank satisfies 1 <= NNN <= number of HEAD dictionary entries — in
particular no assigned rank ever equals a reserved code. -/
theorem compress_dictionary_invariants (key : List Nat) (mkey : List (List Int))
    (cq mq : Nat → Bool) (s : List Nat) :
    (s_compressParts key mkey cq mq s).lChunks.length ≤ 997 ∧
    ((s_compressParts key mkey cq mq s).headParts.drop 3).length =
      (s_compressParts key mkey cq mq s).lChunks.length ∧
    (s_compressParts key mkey cq mq s).footParts.length =
      (s_compressParts key mkey cq mq s).lChunks.length ∧
    ∀ part ∈ (s_compressParts key mkey cq mq s).bodyParts, ∀ t, part = 64 :: t →
      (digitsVal t = 0 ∨ digitsVal t = 998 ∨ digitsVal t = 999) ∨
      (1 ≤ digitsVal t ∧ digitsVal t ≤ (s_compressParts key mkey cq mq s).lChunks.length) := by
  obtain ⟨hhd, hft⟩ := compress_head_foot_extraction_order key mkey cq mq s
  have hlc : (s_compressParts key mkey cq mq s).lChunks =
      (scanLoop cq mq mkey 0 0 ((s_encrypt s key).map escapeTok)).lc := rfl
  refine ⟨?_, ?_, ?_, ?_⟩
  · rw [hlc]
    have := scanLoopF_lc_length cq mq mkey ((s_encrypt s key).map escapeTok).length 0 0
      ((s_encrypt s key).map escapeTok)
    unfold scanLoop
    omega
  · rw [hhd, List.length_map]
  · rw [hft, List.length_map]
  · intro part hpart t hpart64
    have hbd : (s_compressParts key mkey cq mq s).bodyParts =
        rewriteRefs (scanLoop cq mq mkey 0 0 ((s_encrypt s key).map escapeTok)).lc
          (scanLoop cq mq mkey 0 0 ((s_encrypt s key).map escapeTok)).bd := rfl
    rw [hbd] at hpart
    unfold rewriteRefs at hpart
    rw [List.mem_map] at hpart
    obtain ⟨part0, hmem0, hrw⟩ := hpart
    rcases rewritePart_cases _ part0 with hsame | ⟨cv, hcv, hval⟩
    · rw [hsame] at hrw
      subst hrw
      rcases scanLoop_bd_parts cq mq mkey ((s_encrypt s key).map escapeTok).length
          ((s_encrypt s key).map escapeTok) 0 0 (le_refl _)
          (by intro tok htk; rw [List.mem_map] at htk; obtain ⟨c, -, hc⟩ := htk;
              rw [← hc]; exact escapeTok_isTok c) part0 hmem0 with
        ⟨k, hk1, hk2, hk3⟩ | ⟨tok, htok, hcase⟩
      · right
        rw [hk3] at hpart64
        unfold refPart at hpart64
        have ht : t = pad3 k := by
          injection hpart64 with h1 h2
          exact h2.symm
        rw [ht, digitsVal_pad3]
        rw [hlc]
        omega
      · rcases hcase with hcase | hcase
        · rcases htok with h | h | h | ⟨c, hc64, hc10, hc47, hc⟩
          · left
            rw [hcase, h] at hpart64
            injection hpart64 with h1 h2
            rw [← h2]
            left
            decide
          · left
            rw [hcase, h] at hpart64
            injection hpart64 with h1 h2
            rw [← h2]
            right; right
            decide
          · left
            rw [hcase, h] at hpart64
            injection hpart64 with h1 h2
            rw [← h2]
            right; left
            decide
          · exfalso
            rw [hcase, hc] at hpart64
            injection hpart64 with h1 h2
            exact hc64 h1
        · exfalso
          rw [hcase] at hpart64
          unfold matPart at hpart64
          injection hpart64 with h1 h2
          omega
    · right
      rw [hval] at hrw
      subst hrw
      injection hpart64 with h1 h2
      rw [← h2, digitsVal_pad3, hlc]
      omega

/-! ## Parsing matrix literals (the eval calls of s_decompress) -/

/-- Longest leading digit run as a number, with the remainder. -/
def parseNat (l : List Nat) : Option (Nat × List Nat) :=
  if (l.takeWhile isDigit).isEmpty then none
  else some (digitsVal (l.takeWhile isDigit), l.dropWhile isDigit)

/-- An integer literal: an optional minus sign then a digit run. -/
def parseIntM (l : List Nat) : Option (Int × List Nat) :=
  match l with
  | [] => none
  | c :: rest =>
    if c = 45 then (parseNat rest).map (fun p => (-(p.1 : Int), p.2))
    else (parseNat (c :: rest)).map (fun p => ((p.1 : Int), p.2))

/-- A comma-space separated run of integer literals, with fuel bounding
the number of elements (the fuel keeps the recursion structural). -/
def parseIntsSep : Nat → List Nat → Option (List Int × List Nat)
  | 0, _ => none
  | fuel + 1, l =>
    match parseIntM l with
    | none => none
    | some (z, r1) =>
      match r1 with
      | 44 :: 32 :: r2 =>
        match parseIntsSep fuel r2 with
        | none => none
        | some (zs, r3) => some (z :: zs, r3)
      | _ => some ([z], r1)

/-- A bracketed row of integer literals. -/
def parseRow (fuel : Nat) (l : List Nat) : Option (List Int × List Nat) :=
  match l with
  | [] => none
  | c :: rest =>
    if c = 91 then
      match rest with
      | [] => none
      | d :: r0 =>
        if d = 93 then some ([], r0)
        else
          match parseIntsSep fuel (d :: r0) with
          | none => none
          | some (zs, r1) =>
            match r1 with
            | 93 :: r2 => some (zs, r2)
            | _ => none
    else none

/-- A comma-space separated run of bracketed rows. -/
def parseRowsSep : Nat → List Nat → Option (List (List Int) × List Nat)
  | 0, _ => none
  | fuel + 1, l =>
    match parseRow fuel l with
    | none => none
    | some (row, r1) =>
      match r1 with
      | 44 :: 32 :: r2 =>
        match parseRowsSep fuel r2 with
        | none => none
        | some (rows, r3) => some (row :: rows, r3)
      | _ => some ([row], r1)

/-- Embedding of the eval calls of s_decompress on matrix text: a
bracketed comma-space separated list of bracketed integer rows, consuming
the whole input.  Text outside this grammar is modelled as a decode
failure (eval on non-literal text raises for every value the decoder can
subsequently use as a matrix). -/
def parseMat (l : List Nat) : Option (List (List Int)) :=
  match l with
  | [] => none
  | c :: rest =>
    if c = 91 then
      match rest with
      | [93] => some []
      | _ =>
        match parseRowsSep l.length rest with
        | none => none
        | some (rows, r1) =>
          match r1 with
          | [93] => some rows
          | _ => none
    else none

theorem takeWhile_append_of_all {p : Nat → Bool} :
    ∀ a b : List Nat, (∀ c ∈ a, p c = true) →
      (a ++ b).takeWhile p = a ++ b.takeWhile p := by
  intro a
  induction a with
  | nil => intro b h; simp
  | cons c rest ih =>
    intro b h
    rw [List.cons_append, List.takeWhile_cons, h c (by simp)]
    rw [ih b (fun d hd => h d (by simp [hd]))]
    simp

theorem dropWhile_append_of_all {p : Nat → Bool} :
    ∀ a b : List Nat, (∀ c ∈ a, p c = true) →
      (a ++ b).dropWhile p = b.dropWhile p := by
  intro a
  induction a with
  | nil => intro b h; simp
  | cons c rest ih =>
    intro b h
    rw [List.cons_append, List.dropWhile_cons, h c (by simp)]
    simp only [if_true]
    exact ih b (fun d hd => h d (by simp [hd]))

theorem takeWhile_nil_of_head {p : Nat → Bool} (b : List Nat)
    (h : ∀ d, b.head? = some d → p d = false) : b.takeWhile p = [] := by
  cases b with
  | nil => rfl
  | cons d rest =>
    rw [List.takeWhile_cons, h d rfl]
    simp

theorem dropWhile_id_of_head {p : Nat → Bool} (b : List Nat)
    (h : ∀ d, b.head? = some d → p d = false) : b.dropWhile p = b := by
  cases b with
  | nil => rfl
  | cons d rest =>
    rw [List.dropWhile_cons, h d rfl]
    simp

theorem parseNat_natDec (n : Nat) (rest : List Nat)
    (hrest : ∀ d, rest.head? = some d → isDigit d = false) :
    parseNat (natDec n ++ rest) = some (n, rest) := by
  unfold parseNat
  rw [takeWhile_append_of_all (natDec n) rest (natDec_digits n),
    takeWhile_nil_of_head rest hrest,
    dropWhile_append_of_all (natDec n) rest (natDec_digits n),
    dropWhile_id_of_head rest hrest, List.append_nil]
  have : (natDec n).isEmpty = false := by
    cases h : natDec n with
    | nil => exact absurd h (natDec_ne_nil n)
    | cons x xs => rfl
  rw [this]
  simp [digitsVal_natDec]

theorem intRepr_ne_nil (z : Int) : intRepr z ≠ [] := by
  unfold intRepr
  split
  · simp
  · exact natDec_ne_nil z.natAbs

theorem intRepr_head (z : Int) :
    ∃ d ds, intRepr z = d :: ds ∧ (d = 45 ∨ isDigit d = true) := by
  unfold intRepr
  split
  · exact ⟨45, natDec z.natAbs, rfl, Or.inl rfl⟩
  · cases h : natDec z.natAbs with
    | nil => exact absurd h (natDec_ne_nil z.natAbs)
    | cons d ds =>
      refine ⟨d, ds, rfl, Or.inr ?_⟩
      exact natDec_digits z.natAbs d (by rw [h]; simp)

theorem joinSep_cons2 (x y : List Nat) (xs : List (List Nat)) (sep : List Nat) :
    joinSep (x :: y :: xs) sep = x ++ sep ++ joinSep (y :: xs) sep := rfl

theorem parseIntM_intRepr (z : Int) (rest : List Nat)
    (hrest : ∀ d, rest.head? = some d → isDigit d = false) :
    parseIntM (intRepr z ++ rest) = some (z, rest) := by
  unfold intRepr
  split
  · rename_i hneg
    show parseIntM (45 :: (natDec z.natAbs ++ rest)) = some (z, rest)
    simp only [parseIntM, if_true]
    rw [parseNat_natDec z.natAbs rest hrest]
    simp only [Option.map]
    have : -((z.natAbs : Nat) : Int) = z := by omega
    rw [this]
  · rename_i hpos
    cases h : natDec z.natAbs with
    | nil => exact absurd h (natDec_ne_nil z.natAbs)
    | cons d ds =>
      have hd : isDigit d = true := natDec_digits z.natAbs d (by rw [h]; simp)
      have hd45 : d ≠ 45 := by
        intro habs
        rw [habs] at hd
        simp [isDigit] at hd
      show parseIntM ((d :: ds) ++ rest) = some (z, rest)
      simp only [List.cons_append, parseIntM]
      rw [if_neg hd45]
      rw [show d :: (ds ++ rest) = (d :: ds) ++ rest by rfl, ← h,
        parseNat_natDec z.natAbs rest hrest]
      simp only [Option.map]
      have : ((z.natAbs : Nat) : Int) = z := by omega
      rw [this]

theorem parseIntsSep_joinSep :
    ∀ (row : List Int) (fuel : Nat) (rest : List Nat), row ≠ [] → row.length ≤ fuel →
      rest.head? = some 93 →
      parseIntsSep fuel (joinSep (row.map intRepr) [44, 32] ++ rest) = some (row, rest) := by
  intro row
  induction row with
  | nil => intro fuel rest h; exact absurd rfl h
  | cons z zs ih =>
    intro fuel rest hne hfuel hrest
    cases fuel with
    | zero => simp at hfuel
    | succ f =>
      cases rest with
      | nil => simp at hrest
      | cons r0 rtail =>
        have hr93 : r0 = 93 := by simpa using hrest
        subst hr93
        cases zs with
        | nil =>
          show parseIntsSep (f + 1) (intRepr z ++ (93 :: rtail)) = some ([z], 93 :: rtail)
          unfold parseIntsSep
          rw [parseIntM_intRepr z (93 :: rtail) (by intro d hd; simp at hd; subst hd; decide)]
        | cons z2 zs2 =>
          have hjoin : joinSep ((z :: z2 :: zs2).map intRepr) [44, 32] ++ (93 :: rtail) =
              intRepr z ++ (44 :: 32 :: (joinSep ((z2 :: zs2).map intRepr) [44, 32] ++
                (93 :: rtail))) := by
            simp only [List.map_cons, joinSep_cons2]
            simp
          rw [hjoin]
          unfold parseIntsSep
          rw [parseIntM_intRepr z _ (by intro d hd; simp at hd; subst hd; decide)]
          have := ih f (93 :: rtail) (by simp) (by simp at hfuel ⊢; omega) rfl
          simp only [this]

theorem parseRow_reprRow (row : List Int) (fuel : Nat) (rest : List Nat)
    (hne : row ≠ []) (hfuel : row.length ≤ fuel) :
    parseRow fuel (reprRow row ++ rest) = some (row, rest) := by
  cases row with
  | nil => exact absurd rfl hne
  | cons z zs =>
    obtain ⟨d, ds, hdeq, hdval⟩ := intRepr_head z
    have hd93 : d ≠ 93 := by
      rcases hdval with h | h
      · omega
      · simp [isDigit] at h
        omega
    have hJ : ∃ T, joinSep ((z :: zs).map intRepr) [44, 32] = intRepr z ++ T := by
      cases zs with
      | nil => exact ⟨[], by simp [joinSep]⟩
      | cons z2 zs2 =>
        exact ⟨[44, 32] ++ joinSep ((z2 :: zs2).map intRepr) [44, 32],
          by simp only [List.map_cons, joinSep_cons2]; simp⟩
    obtain ⟨T, hJ⟩ := hJ
    have hkey : reprRow (z :: zs) ++ rest = 91 :: (d :: (ds ++ (T ++ (93 :: rest)))) := by
      unfold reprRow
      rw [hJ, hdeq]
      simp
    have hback : d :: (ds ++ (T ++ (93 :: rest))) =
        joinSep ((z :: zs).map intRepr) [44, 32] ++ (93 :: rest) := by
      rw [hJ, hdeq]
      simp
    rw [hkey]
    simp only [parseRow, if_true]
    rw [if_neg hd93, hback,
      parseIntsSep_joinSep (z :: zs) fuel (93 :: rest) (by simp) hfuel rfl]

theorem parseRowsSep_reprRows :
    ∀ (rows : List (List Int)) (fuel : Nat) (rest : List Nat), rows ≠ [] →
      (∀ r ∈ rows, r ≠ []) →
      (∀ r ∈ rows, r.length + rows.length ≤ fuel) →
      rest.head? = some 93 →
      parseRowsSep fuel (joinSep (rows.map reprRow) [44, 32] ++ rest) = some (rows, rest) := by
  intro rows
  induction rows with
  | nil => intro fuel rest h; exact absurd rfl h
  | cons r rs ih =>
    intro fuel rest hne hrowsne hfuel hrest
    cases fuel with
    | zero =>
      exfalso
      have := hfuel r (by simp)
      simp at this
    | succ f =>
      have hrne : r ≠ [] := hrowsne r (by simp)
      have hrlen : r.length ≤ f := by
        have := hfuel r (by simp)
        simp at this
        omega
      cases rs with
      | nil =>
        cases rest with
        | nil => simp at hrest
        | cons r0 rtail =>
          have hr93 : r0 = 93 := by simpa using hrest
          subst hr93
          show parseRowsSep (f + 1) (reprRow r ++ (93 :: rtail)) = some ([r], 93 :: rtail)
          unfold parseRowsSep
          rw [parseRow_reprRow r f (93 :: rtail) hrne hrlen]
      | cons r2 rs2 =>
        have hjoin : joinSep ((r :: r2 :: rs2).map reprRow) [44, 32] ++ rest =
            reprRow r ++ (44 :: 32 :: (joinSep ((r2 :: rs2).map reprRow) [44, 32] ++ rest)) := by
          simp only [List.map_cons, joinSep_cons2]
          simp
        rw [hjoin]
        unfold parseRowsSep
        rw [parseRow_reprRow r f _ hrne hrlen]
        have hih := ih f rest (by simp) (fun x hx => hrowsne x (by simp [hx]))
          (by intro x hx; have := hfuel x (by simp [hx]); simp at this ⊢; omega) hrest
        simp only [hih]

theorem joinSep_len_ge_count :
    ∀ (xs : List (List Nat)) (sep : List Nat), (∀ x ∈ xs, x ≠ []) →
      xs.length ≤ (joinSep xs sep).length := by
  intro xs
  induction xs with
  | nil => intro sep h; simp [joinSep]
  | cons x ys ih =>
    intro sep h
    cases ys with
    | nil =>
      simp [joinSep]
      have := h x (by simp)
      cases x with
      | nil => exact absurd rfl this
      | cons a b => simp
    | cons y ys2 =>
      rw [joinSep_cons2]
      have hx : x ≠ [] := h x (by simp)
      have hxlen : 1 ≤ x.length := by
        cases x with
        | nil => exact absurd rfl hx
        | cons a b => simp
      have := ih sep (fun w hw => h w (by simp at hw ⊢; tauto))
      simp at this ⊢
      omega

theorem joinSep_len_strong :
    ∀ (xs : List (List Nat)) (sep : List Nat), (∀ x ∈ xs, x ≠ []) →
      ∀ x0 ∈ xs, x0.length + (xs.length - 1) ≤ (joinSep xs sep).length := by
  intro xs
  induction xs with
  | nil => intro sep h x0 hx0; simp at hx0
  | cons x ys ih =>
    intro sep h x0 hx0
    cases ys with
    | nil =>
      simp at hx0
      subst hx0
      simp [joinSep]
    | cons y ys2 =>
      rw [joinSep_cons2]
      simp at hx0
      rcases hx0 with hx0 | hx0
      · subst hx0
        have := joinSep_len_ge_count (y :: ys2) sep (fun w hw => h w (by simp at hw ⊢; tauto))
        simp at this ⊢
        omega
      · have hx : x ≠ [] := h x (by simp)
        have hxlen : 1 ≤ x.length := by
          cases x with
          | nil => exact absurd rfl hx
          | cons a b => simp
        have := ih sep (fun w hw => h w (by simp at hw ⊢; tauto)) x0 (by simp [hx0])
        simp at this ⊢
        omega

theorem reprRow_ne_nil (r : List Int) : reprRow r ≠ [] := by
  unfold reprRow
  simp

theorem reprRow_len_ge (r : List Int) : 2 + r.length ≤ (reprRow r).length := by
  unfold reprRow
  have : r.length ≤ (joinSep (r.map intRepr) [44, 32]).length := by
    have := joinSep_len_ge_count (r.map intRepr) [44, 32]
      (by intro x hx; rw [List.mem_map] at hx; obtain ⟨z, -, hz⟩ := hx; rw [← hz];
          exact intRepr_ne_nil z)
    simpa using this
  simp
  omega

theorem parseMat_reprMat (m : List (List Int)) (hne : m ≠ [])
    (hrows : ∀ r ∈ m, r ≠ []) : parseMat (reprMat m) = some m := by
  cases m with
  | nil => exact absurd rfl hne
  | cons r rs =>
    have hkey : reprMat (r :: rs) =
        91 :: (joinSep ((r :: rs).map reprRow) [44, 32] ++ [93]) := by
      unfold reprMat
      simp
    have hJhead : ∃ tl, joinSep ((r :: rs).map reprRow) [44, 32] ++ ([93] : List Nat) =
        91 :: tl := by
      cases rs with
      | nil =>
        refine ⟨joinSep (r.map intRepr) [44, 32] ++ [93] ++ [93], ?_⟩
        simp [joinSep, reprRow]
      | cons r2 rs2 =>
        refine ⟨joinSep (r.map intRepr) [44, 32] ++ [93] ++
          ([44, 32] ++ joinSep ((r2 :: rs2).map reprRow) [44, 32]) ++ [93], ?_⟩
        simp only [List.map_cons, joinSep_cons2]
        simp [reprRow]
    obtain ⟨tl, hJhead⟩ := hJhead
    have hfuel : ∀ x ∈ r :: rs, x.length + (r :: rs).length ≤ (reprMat (r :: rs)).length := by
      intro x hx
      have h1 := joinSep_len_strong ((r :: rs).map reprRow) [44, 32]
        (by intro w hw; rw [List.mem_map] at hw; obtain ⟨q, -, hq⟩ := hw; rw [← hq];
            exact reprRow_ne_nil q)
        (reprRow x) (List.mem_map_of_mem reprRow hx)
      have h2 := reprRow_len_ge x
      rw [hkey]
      simp at h1 ⊢
      omega
    rw [hkey]
    simp only [parseMat, if_true]
    rw [hJhead]
    have hlen9 : (91 :: (joinSep ((r :: rs).map reprRow) [44, 32] ++ [93])).length =
        (joinSep ((r :: rs).map reprRow) [44, 32]).length + 2 := by simp
    rw [← hJhead]
    rw [parseRowsSep_reprRows (r :: rs) _ [93] (by simp) hrows
      (by intro x hx; have := hfuel x hx; rw [hkey] at this; simpa using this) rfl]
    rw [hJhead]

/-! ## The decode pipeline (s_decompress) -/

/-- Decode failures of s_decompress, one constructor per raising site of
the source: int() on the version prefix, unpacking the three sections,
unpacking the head fields, eval of a matrix literal, chr of an
out-of-range code, an out-of-range dictionary index, and hang for a
randomized search loop that never terminates. -/
inductive DErr where
  | badVersion
  | badSections
  | badHead
  | badMatrix
  | badChr
  | badRef
  | hang
deriving DecidableEq

/-- Embedding of Python str.split on a one-character separator. -/
def pySplit (sep : Nat) : List Nat → List (List Nat)
  | [] => [[]]
  | c :: rest =>
    if c = sep then [] :: pySplit sep rest
    else
      match pySplit sep rest with
      | [] => [[c]]
      | p :: ps => (c :: p) :: ps

/-- The match of the non-greedy pattern between slashes, starting just
after an opening slash: the shortest strictly positive run of non-newline
characters followed by a slash, returned with the text after that closing
slash.  None when no such closing slash exists (the regex then moves on). -/
def findClose : List Nat → Option (List Nat × List Nat)
  | [] => none
  | [_] => none
  | c :: r0 :: rtail =>
    if c = 10 then none
    else if r0 = 47 then some ([c], rtail)
    else (findClose (r0 :: rtail)).map (fun p => (c :: p.1, p.2))

/-- First substitution pass of s_decompress over BODY, with fuel keeping
the recursion structural (every step consumes at least one character):
each /.../ group is replaced by the result of fix on its interior,
scanning left to right without rescanning replacements, exactly as re.sub
does. -/
def sub1F (fix : List Nat → Except DErr (List Nat)) : Nat → List Nat → Except DErr (List Nat)
  | _, [] => Except.ok []
  | 0, _ :: _ => Except.ok []
  | f + 1, c :: rest =>
    if c = 47 then
      match findClose rest with
      | some (int, rem) => do
        let r ← fix int
        let t ← sub1F fix f rem
        Except.ok (r ++ t)
      | none => (sub1F fix f rest).map (fun t => 47 :: t)
    else (sub1F fix f rest).map (fun t => c :: t)

/-- The first substitution pass, run with sufficient fuel. -/
def sub1 (fix : List Nat → Except DErr (List Nat)) (l : List Nat) :
    Except DErr (List Nat) :=
  sub1F fix l.length l

/-- The three reserved 3-digit codes as digit characters. -/
def reservedB (d1 d2 d3 : Nat) : Bool :=
  (d1 == 48 && d2 == 48 && d3 == 48) || (d1 == 57 && d2 == 57 && d3 == 56) ||
    (d1 == 57 && d2 == 57 && d3 == 57)

/-- Second substitution pass of s_decompress: each @ followed by three
digits is kept verbatim when the digits are a reserved code and otherwise
replaced by the dictionary chunk at that sorted rank; an out-of-range rank
is an IndexError.  An @ not followed by three digits is emitted and
scanning resumes at the next character, as re.sub does on a failed match. -/
def sub2F (chunks : List (List Nat)) : Nat → List Nat → Except DErr (List Nat)
  | _, [] => Except.ok []
  | 0, _ :: _ => Except.ok []
  | f + 1, c :: rest =>
    if c = 64 then
      match rest with
      | d1 :: d2 :: d3 :: rest2 =>
        if isDigit d1 && isDigit d2 && isDigit d3 then
          if reservedB d1 d2 d3 then
            (sub2F chunks f rest2).map (fun t => 64 :: d1 :: d2 :: d3 :: t)
          else
            match chunks.get? (digitsVal [d1, d2, d3] - 1) with
            | some txt => (sub2F chunks f rest2).map (fun t => txt ++ t)
            | none => Except.error DErr.badRef
        else (sub2F chunks f rest).map (fun t => 64 :: t)
      | _ => (sub2F chunks f rest).map (fun t => 64 :: t)
    else (sub2F chunks f rest).map (fun t => c :: t)

/-- The second substitution pass, run with sufficient fuel. -/
def sub2 (chunks : List (List Nat)) (l : List Nat) : Except DErr (List Nat) :=
  sub2F chunks l.length l

/-- Third substitution pass of s_decompress: every remaining @ followed by
three digits becomes the literal character of its code: @ for 000, / for
998, and a newline for everything else. -/
def sub3F : Nat → List Nat → List Nat
  | _, [] => []
  | 0, _ :: _ => []
  | f + 1, c :: rest =>
    if c = 64 then
      match rest with
      | d1 :: d2 :: d3 :: rest2 =>
        if isDigit d1 && isDigit d2 && isDigit d3 then
          (if d1 = 48 && d2 = 48 && d3 = 48 then 64
           else if d1 = 57 && d2 = 57 && d3 = 56 then 47
           else 10) :: sub3F f rest2
        else 64 :: sub3F f rest
      | _ => 64 :: sub3F f rest
    else c :: sub3F f rest

/-- The third substitution pass, run with sufficient fuel. -/
def sub3 (l : List Nat) : List Nat := sub3F l.length l

/-- The matrix_fix callback of s_decompress: parse the matrix literal
(eval), divide it by the matrix key through the division oracle (a
terminating run of matdiv, none when the search never terminates), then
either decode a character code (second cell of the first row zero) or an
escaped token (each first-row cell minus 10, as decimal text after an @). -/
def matrix_fix (divO : List (List Int) → List (List Int) → Option (List (List Int)))
    (mkey : List (List Int)) (interior : List Nat) : Except DErr (List Nat) :=
  match parseMat interior with
  | none => Except.error DErr.badMatrix
  | some lst =>
    match divO lst mkey with
    | none => Except.error DErr.hang
    | some soln =>
      if (soln.headD []).getD 1 0 = 0 then
        if 0 ≤ (soln.headD []).getD 0 0 ∧ (soln.headD []).getD 0 0 ≤ 1114111 then
          Except.ok [((soln.headD []).getD 0 0).toNat]
        else Except.error DErr.badChr
      else
        Except.ok (64 :: (soln.headD []).foldr (fun i acc => intRepr (i - 10) ++ acc) [])

/-- Embedding of s_decompress, parameterized by the matrix-division and
decrypt oracles standing for terminating runs of the two randomized
search loops.  The r_sort call on the header chunk list is embedded as
insertion sort: by r_sortRun_eq_insertionSort every terminating r_sort
run returns exactly that list. -/
def s_decompress (divO : List (List Int) → List (List Int) → Option (List (List Int)))
    (decO : List Nat → List Nat → Option (List Nat)) (x : List Nat) :
    Except DErr (List Nat) :=
  match pyInt (x.take 3) with
  | none => Except.error DErr.badVersion
  | some _ =>
    match pySplit 10 (x.drop 3) with
    | [head, body, _foot] =>
      match pySplit 47 head with
      | key :: mstr :: hrest =>
        match parseMat mstr with
        | none => Except.error DErr.badMatrix
        | some mkey =>
          match sub1 (matrix_fix divO mkey) body with
          | Except.error e => Except.error e
          | Except.ok b1 =>
            match sub2 (List.insertionSort (· ≤ ·) hrest.dropLast) b1 with
            | Except.error e => Except.error e
            | Except.ok b2 =>
              match decO (sub3 b2) key with
              | none => Except.error DErr.hang
              | some p => Except.ok p
      | _ => Except.error DErr.badHead
    | _ => Except.error DErr.badSections

/-- Validity of a matrix-division oracle: every value it returns is a
possible result of a terminating matdiv run on those arguments. -/
def DivOValid (divO : List (List Int) → List (List Int) → Option (List (List Int))) : Prop :=
  ∀ c b cand, divO c b = some cand → matdivRel c b cand

/-- Validity of a decrypt oracle: every value it returns is a possible
result of a terminating s_decrypt run on that ciphertext and key. -/
def DecOValid (decO : List Nat → List Nat → Option (List Nat)) : Prop :=
  ∀ e k p, decO e k = some p → s_decryptRel e k p

theorem findClose_decomp :
    ∀ l int rem, findClose l = some (int, rem) →
      l = int ++ 47 :: rem ∧ int ≠ [] ∧ (∀ c ∈ int, c ≠ 10) := by
  intro l
  induction l with
  | nil => intro int rem h; simp [findClose] at h
  | cons c rest ih =>
    intro int rem h
    cases rest with
    | nil => simp [findClose] at h
    | cons r0 rtail =>
      rw [findClose] at h
      split at h
      · simp at h
      · rename_i hc10
        split at h
        · rename_i hr
          simp at h
          obtain ⟨hi, hr2⟩ := h
          subst hr
          rw [← hi, ← hr2]
          exact ⟨by simp, by simp, by intro x hx; simp at hx; subst hx; exact hc10⟩
        · rename_i hr
          cases hfc : findClose (r0 :: rtail) with
          | none => rw [hfc] at h; simp at h
          | some p =>
            rw [hfc] at h
            simp at h
            obtain ⟨h1, h2, h3⟩ := ih p.1 p.2 (by rw [hfc])
            obtain ⟨hi, hr2⟩ := h
            rw [← hi, ← hr2]
            refine ⟨by rw [h1]; simp, by simp, ?_⟩
            intro x hx
            simp at hx
            rcases hx with hx | hx
            · subst hx; exact hc10
            · exact h3 x hx

theorem sub1F_congr (fix : List Nat → Except DErr (List Nat)) :
    ∀ f g l, l.length ≤ f → l.length ≤ g → sub1F fix f l = sub1F fix g l := by
  intro f
  induction f with
  | zero =>
    intro g l hf _
    have : l = [] := List.eq_nil_of_length_eq_zero (by omega)
    subst this
    cases g <;> rfl
  | succ f2 ih =>
    intro g l hf hg
    cases l with
    | nil => cases g <;> rfl
    | cons c rest =>
      cases g with
      | zero => simp at hg
      | succ g2 =>
        simp only [sub1F]
        by_cases hc : c = 47
        · rw [if_pos hc, if_pos hc]
          cases hfc : findClose rest with
          | none =>
            rw [ih g2 rest (by simp at hf; omega) (by simp at hg; omega)]
          | some p =>
            obtain ⟨int, rem⟩ := p
            obtain ⟨hdec, hne, -⟩ := findClose_decomp rest int rem hfc
            have h1 : 1 ≤ int.length := List.length_pos.mpr hne
            have hlen : rem.length + 1 ≤ rest.length := by
              rw [hdec]
              simp
            dsimp only
            rw [ih g2 rem (by simp at hf; omega) (by simp at hg; omega)]
        · rw [if_neg hc, if_neg hc,
            ih g2 rest (by simp at hf; omega) (by simp at hg; omega)]

theorem sub1_nil (fix : List Nat → Except DErr (List Nat)) : sub1 fix [] = Except.ok [] := rfl

theorem sub1_cons_nos (fix : List Nat → Except DErr (List Nat)) (c : Nat) (rest : List Nat)
    (hc : c ≠ 47) : sub1 fix (c :: rest) = (sub1 fix rest).map (fun t => c :: t) := by
  unfold sub1
  simp only [List.length_cons, sub1F]
  rw [if_neg hc]

theorem sub1_cons_close (fix : List Nat → Except DErr (List Nat)) (rest int rem : List Nat)
    (hfc : findClose rest = some (int, rem)) :
    sub1 fix (47 :: rest) =
      (do
        let r ← fix int
        let t ← sub1 fix rem
        Except.ok (r ++ t)) := by
  unfold sub1
  simp only [List.length_cons, sub1F]
  rw [hfc]
  obtain ⟨hdec, hne, -⟩ := findClose_decomp rest int rem hfc
  have h1 : 1 ≤ int.length := List.length_pos.mpr hne
  have hlen : rem.length + 1 ≤ rest.length := by
    rw [hdec]
    simp
  simp only [if_true]
  rw [sub1F_congr fix rest.length rem.length rem (by omega) (le_refl _)]

theorem sub1_cons_noclose (fix : List Nat → Except DErr (List Nat)) (rest : List Nat)
    (hfc : findClose rest = none) :
    sub1 fix (47 :: rest) = (sub1 fix rest).map (fun t => 47 :: t) := by
  unfold sub1
  simp only [List.length_cons, sub1F]
  rw [hfc]
  simp only [if_true]

theorem sub2F_congr (chunks : List (List Nat)) :
    ∀ f g l, l.length ≤ f → l.length ≤ g → sub2F chunks f l = sub2F chunks g l := by
  intro f
  induction f with
  | zero =>
    intro g l hf _
    have : l = [] := List.eq_nil_of_length_eq_zero (by omega)
    subst this
    cases g <;> rfl
  | succ f2 ih =>
    intro g l hf hg
    cases l with
    | nil => cases g <;> rfl
    | cons c rest =>
      cases g with
      | zero => simp at hg
      | succ g2 =>
        simp only [sub2F]
        have hrest : rest.length ≤ f2 ∧ rest.length ≤ g2 := by
          simp at hf hg
          omega
        by_cases hc : c = 64
        · rw [if_pos hc, if_pos hc]
          cases rest with
          | nil =>
            dsimp only
            rw [ih g2 [] (by simp) (by simp)]
          | cons d1 r1 =>
            cases r1 with
            | nil =>
              dsimp only
              rw [ih g2 [d1] (by simp at hf; omega) (by simp at hg; omega)]
            | cons d2 r2 =>
              cases r2 with
              | nil =>
                dsimp only
                rw [ih g2 [d1, d2] (by simp at hf; omega) (by simp at hg; omega)]
              | cons d3 rest2 =>
                have h4 : rest2.length ≤ f2 ∧ rest2.length ≤ g2 := by
                  simp at hf hg
                  omega
                dsimp only
                rw [ih g2 rest2 h4.1 h4.2,
                  ih g2 (d1 :: d2 :: d3 :: rest2) hrest.1 hrest.2]
        · rw [if_neg hc, if_neg hc, ih g2 rest hrest.1 hrest.2]

theorem sub2_nil (chunks : List (List Nat)) : sub2 chunks [] = Except.ok [] := rfl

theorem sub2_cons_notat (chunks : List (List Nat)) (c : Nat) (rest : List Nat)
    (hc : c ≠ 64) : sub2 chunks (c :: rest) = (sub2 chunks rest).map (fun t => c :: t) := by
  unfold sub2
  simp only [List.length_cons, sub2F]
  rw [if_neg hc]

theorem sub2_reserved (chunks : List (List Nat)) (d1 d2 d3 : Nat) (rest2 : List Nat)
    (hd : (isDigit d1 && isDigit d2 && isDigit d3) = true)
    (hres : reservedB d1 d2 d3 = true) :
    sub2 chunks (64 :: d1 :: d2 :: d3 :: rest2) =
      (sub2 chunks rest2).map (fun t => 64 :: d1 :: d2 :: d3 :: t) := by
  unfold sub2
  simp only [List.length_cons, sub2F, hd, hres, if_true]
  rw [sub2F_congr chunks (rest2.length + 1 + 1 + 1) rest2.length rest2 (by omega) (le_refl _)]

theorem sub2_ref (chunks : List (List Nat)) (d1 d2 d3 : Nat) (rest2 txt : List Nat)
    (hd : (isDigit d1 && isDigit d2 && isDigit d3) = true)
    (hres : reservedB d1 d2 d3 = false)
    (hget : chunks.get? (digitsVal [d1, d2, d3] - 1) = some txt) :
    sub2 chunks (64 :: d1 :: d2 :: d3 :: rest2) =
      (sub2 chunks rest2).map (fun t => txt ++ t) := by
  unfold sub2
  simp only [List.length_cons, sub2F, hd, hres, hget, if_true, Bool.false_eq_true, if_false]
  rw [sub2F_congr chunks (rest2.length + 1 + 1 + 1) rest2.length rest2 (by omega) (le_refl _)]

theorem sub2_ref_oob (chunks : List (List Nat)) (d1 d2 d3 : Nat) (rest2 : List Nat)
    (hd : (isDigit d1 && isDigit d2 && isDigit d3) = true)
    (hres : reservedB d1 d2 d3 = false)
    (hget : chunks.get? (digitsVal [d1, d2, d3] - 1) = none) :
    sub2 chunks (64 :: d1 :: d2 :: d3 :: rest2) = Except.error DErr.badRef := by
  unfold sub2
  simp only [List.length_cons, sub2F, hd, hres, hget, if_true, Bool.false_eq_true, if_false]

theorem sub3F_congr :
    ∀ f g l, l.length ≤ f → l.length ≤ g → sub3F f l = sub3F g l := by
  intro f
  induction f with
  | zero =>
    intro g l hf _
    have : l = [] := List.eq_nil_of_length_eq_zero (by omega)
    subst this
    cases g <;> rfl
  | succ f2 ih =>
    intro g l hf hg
    cases l with
    | nil => cases g <;> rfl
    | cons c rest =>
      cases g with
      | zero => simp at hg
      | succ g2 =>
        simp only [sub3F]
        have hrest : rest.length ≤ f2 ∧ rest.length ≤ g2 := by
          simp at hf hg
          omega
        by_cases hc : c = 64
        · rw [if_pos hc, if_pos hc]
          cases rest with
          | nil =>
            dsimp only
            rw [ih g2 [] (by simp) (by simp)]
          | cons d1 r1 =>
            cases r1 with
            | nil =>
              dsimp only
              rw [ih g2 [d1] (by simp at hf; omega) (by simp at hg; omega)]
            | cons d2 r2 =>
              cases r2 with
              | nil =>
                dsimp only
                rw [ih g2 [d1, d2] (by simp at hf; omega) (by simp at hg; omega)]
              | cons d3 rest2 =>
                have h4 : rest2.length ≤ f2 ∧ rest2.length ≤ g2 := by
                  simp at hf hg
                  omega
                dsimp only
                rw [ih g2 rest2 h4.1 h4.2,
                  ih g2 (d1 :: d2 :: d3 :: rest2) hrest.1 hrest.2]
        · rw [if_neg hc, if_neg hc, ih g2 rest hrest.1 hrest.2]

theorem sub3_nil : sub3 [] = [] := rfl

theorem sub3_cons_notat (c : Nat) (rest : List Nat) (hc : c ≠ 64) :
    sub3 (c :: rest) = c :: sub3 rest := by
  unfold sub3
  simp only [List.length_cons, sub3F]
  rw [if_neg hc]

theorem sub3_code (d1 d2 d3 : Nat) (rest2 : List Nat)
    (hd : (isDigit d1 && isDigit d2 && isDigit d3) = true) :
    sub3 (64 :: d1 :: d2 :: d3 :: rest2) =
      (if d1 = 48 && d2 = 48 && d3 = 48 then 64
       else if d1 = 57 && d2 = 57 && d3 = 56 then 47
       else 10) :: sub3 rest2 := by
  unfold sub3
  simp only [List.length_cons, sub3F, hd, if_true]
  rw [sub3F_congr (rest2.length + 1 + 1 + 1) rest2.length rest2 (by omega) (le_refl _)]

/-- C8: the decoder applies its three BODY passes in the order matrix
inversion, dictionary resolution, reserved-escape resolution: a decode
succeeds exactly when pass 1 succeeds on BODY, pass 2 succeeds on its
output, and the decrypt loop terminates on pass 3's output.  In pass 2
every @NNN with NNN among 000, 998, 999 is re-emitted unchanged, while
every other @NNN is replaced by the dictionary chunk at sorted rank NNN;
pass 3 then maps the reserved codes to the characters @, / and newline. -/
theorem decompress_pass_structure :
    (∀ (chunks : List (List Nat)) (d1 d2 d3 : Nat) (rest2 : List Nat),
      (isDigit d1 && isDigit d2 && isDigit d3) = true → reservedB d1 d2 d3 = true →
      sub2 chunks (64 :: d1 :: d2 :: d3 :: rest2) =
        (sub2 chunks rest2).map (fun t => 64 :: d1 :: d2 :: d3 :: t)) ∧
    (∀ (chunks : List (List Nat)) (d1 d2 d3 : Nat) (rest2 txt : List Nat),
      (isDigit d1 && isDigit d2 && isDigit d3) = true → reservedB d1 d2 d3 = false →
      chunks.get? (digitsVal [d1, d2, d3] - 1) = some txt →
      sub2 chunks (64 :: d1 :: d2 :: d3 :: rest2) =
        (sub2 chunks rest2).map (fun t => txt ++ t)) ∧
    (∀ rest : List Nat,
      sub3 (64 :: 48 :: 48 :: 48 :: rest) = 64 :: sub3 rest ∧
      sub3 (64 :: 57 :: 57 :: 56 :: rest) = 47 :: sub3 rest ∧
      sub3 (64 :: 57 :: 57 :: 57 :: rest) = 10 :: sub3 rest) ∧
    (∀ divO decO (x : List Nat) (version : Int)
      (head body foot key mstr : List Nat) (hrest : List (List Nat))
      (mkey : List (List Int)) (p : List Nat),
      pyInt (x.take 3) = some version →
      pySplit 10 (x.drop 3) = [head, body, foot] →
      pySplit 47 head = key :: mstr :: hrest →
      parseMat mstr = some mkey →
      (s_decompress divO decO x = Except.ok p ↔
        ∃ b1 b2, sub1 (matrix_fix divO mkey) body = Except.ok b1 ∧
          sub2 (List.insertionSort (· ≤ ·) hrest.dropLast) b1 = Except.ok b2 ∧
          decO (sub3 b2) key = some p)) := by
  refine ⟨sub2_reserved, sub2_ref, ?_, ?_⟩
  · intro rest
    refine ⟨?_, ?_, ?_⟩ <;> rw [sub3_code _ _ _ rest (by decide)] <;> norm_num
  · intro divO decO x version head body foot key mstr hrest mkey p hv hsplit hhead hmat
    unfold s_decompress
    rw [hv]
    dsimp only
    rw [hsplit]
    dsimp only
    rw [hhead]
    dsimp only
    rw [hmat]
    dsimp only
    cases h1 : sub1 (matrix_fix divO mkey) body with
    | error e =>
      dsimp only
      constructor
      · intro h; exact absurd h (by simp)
      · rintro ⟨b1, b2, hb1, -, -⟩
        exact absurd hb1 (by simp)
    | ok b1 =>
      dsimp only
      cases h2 : sub2 (List.insertionSort (· ≤ ·) hrest.dropLast) b1 with
      | error e =>
        dsimp only
        constructor
        · intro h; exact absurd h (by simp)
        · rintro ⟨b1x, b2, hb1, hb2, -⟩
          have hx : b1x = b1 := by injection hb1 with hh; exact hh.symm
          subst hx
          rw [h2] at hb2
          exact absurd hb2 (by simp)
      | ok b2 =>
        dsimp only
        cases h3 : decO (sub3 b2) key with
        | none =>
          dsimp only
          constructor
          · intro h; exact absurd h (by simp)
          · rintro ⟨b1x, b2x, hb1, hb2, hdec⟩
            have hx : b1x = b1 := by injection hb1 with hh; exact hh.symm
            subst hx
            have hy : b2x = b2 := by rw [h2] at hb2; injection hb2 with hh; exact hh.symm
            subst hy
            rw [h3] at hdec
            exact absurd hdec (by simp)
        | some q =>
          dsimp only
          constructor
          · intro h
            have hq : q = p := by injection h
            subst hq
            exact ⟨b1, b2, rfl, h2, h3⟩
          · rintro ⟨b1x, b2x, hb1, hb2, hdec⟩
            have hx : b1x = b1 := by injection hb1 with hh; exact hh.symm
            subst hx
            have hy : b2x = b2 := by rw [h2] at hb2; injection hb2 with hh; exact hh.symm
            subst hy
            rw [h3] at hdec
            have hq : p = q := by injection hdec with hh; exact hh.symm
            subst hq
            rfl

/-- Witness for decompress_pass_structure: concrete instances of the four
conjuncts, including a full decode of the artifact 001!/[[1]]/ newline
B@ newline (no chunks) through the three passes. -/
theorem decompress_pass_structure_witness :
    sub2 [] (64 :: 48 :: 48 :: 48 :: [65]) =
      (sub2 [] [65]).map (fun t => 64 :: 48 :: 48 :: 48 :: t) ∧
    sub2 [[66]] (64 :: 48 :: 48 :: 49 :: [65]) =
      (sub2 [[66]] [65]).map (fun t => [66] ++ t) ∧
    sub3 (64 :: 57 :: 57 :: 57 :: []) = [10] ∧
    s_decompress (fun _ _ => none)
      (fun e k => if e = [66, 64] ∧ k = [33] then some [97] else none)
      [48, 48, 49, 33, 47, 91, 91, 49, 93, 93, 47, 10, 66, 64, 10] = Except.ok [97] := by
  refine ⟨?_, ?_, ?_, ?_⟩
  · exact decompress_pass_structure.1 [] 48 48 48 [65] (by decide) (by decide)
  · exact decompress_pass_structure.2.1 [[66]] 48 48 49 [65] [66] (by decide) (by decide)
      (by decide)
  · rw [(decompress_pass_structure.2.2.1 []).2.2]
    rfl
  · apply (decompress_pass_structure.2.2.2 (fun _ _ => none)
      (fun e k => if e = [66, 64] ∧ k = [33] then some [97] else none)
      [48, 48, 49, 33, 47, 91, 91, 49, 93, 93, 47, 10, 66, 64, 10] 1
      [33, 47, 91, 91, 49, 93, 93, 47] [66, 64] [] [33] [91, 91, 49, 93, 93] [[]]
      [[1]] [97] (by decide) (by decide) (by decide) (by decide)).mpr
    exact ⟨[66, 64], [66, 64], by rfl, by rfl, by rfl⟩

theorem pySplit_length (sep : Nat) :
    ∀ l : List Nat, (pySplit sep l).length = l.count sep + 1 := by
  intro l
  induction l with
  | nil => simp [pySplit]
  | cons c rest ih =>
    simp only [pySplit]
    by_cases hc : c = sep
    · rw [if_pos hc]
      subst hc
      simp [ih]
    · rw [if_neg hc]
      cases hps : pySplit sep rest with
      | nil =>
        exfalso
        have := ih
        rw [hps] at this
        simp at this
      | cons p ps =>
        rw [hps] at ih
        simp at ih ⊢
        rw [List.count_cons]
        simp [hc]
        omega

/-- C9 counterexample: the artifact whose version field is the three
characters space, 1, space (not a numeric 3-digit version) is malformed,
yet s_decompress accepts it: Python's int strips whitespace, so the parse
succeeds and the decode returns clean text instead of failing.  The two
oracles used are valid: every value they return is a possible terminating
run of the corresponding search loop. -/
theorem decompress_malformed_version_counterexample :
    ¬(∀ c ∈ ([32, 49, 32, 33, 47, 91, 91, 49, 93, 93, 47, 10, 66, 64, 10] :
        List Nat).take 3, isDigit c = true) ∧
    DivOValid (fun _ _ => none) ∧
    DecOValid (fun e k => if e = [66, 64] ∧ k = [33] then some [97] else none) ∧
    s_decompress (fun _ _ => none)
      (fun e k => if e = [66, 64] ∧ k = [33] then some [97] else none)
      [32, 49, 32, 33, 47, 91, 91, 49, 93, 93, 47, 10, 66, 64, 10] = Except.ok [97] := by
  refine ⟨by decide, ?_, ?_, by rfl⟩
  · intro c b cand h
    simp at h
  · intro e k p h
    dsimp only at h
    by_cases hc : e = [66, 64] ∧ k = [33]
    · rw [if_pos hc] at h
      obtain ⟨he, hk⟩ := hc
      subst he
      subst hk
      have hp : p = [97] := by injection h with hh; exact hh.symm
      subst hp
      refine ⟨by decide, ?_, by decide⟩
      intro j hj
      have h0 : j = 0 := Nat.lt_one_iff.mp (by simpa using hj)
      subst h0
      decide
    · rw [if_neg hc] at h
      exact absurd h (by simp)

/-- C9 amended: s_decompress fails with a raised decode error on a missing
or duplicated section separator (the unpacking of HEAD, BODY, FOOT), on a
version prefix that Python's int cannot parse, and on an out-of-range
dictionary rank reached by the reference pass, which propagates out of
the decode; the error is not a dedicated FormatError type, and version
fields that are not 3 ASCII digits but that int still parses (surrounding
whitespace, signs, underscore grouping) are silently accepted. -/
theorem decompress_malformed_errors :
    (∀ divO decO (x : List Nat), (x.drop 3).count 10 ≠ 2 →
      s_decompress divO decO x = Except.error DErr.badVersion ∨
      s_decompress divO decO x = Except.error DErr.badSections) ∧
    (∀ divO decO (x : List Nat), pyInt (x.take 3) = none →
      s_decompress divO decO x = Except.error DErr.badVersion) ∧
    (∀ (chunks : List (List Nat)) (d1 d2 d3 : Nat) (rest2 : List Nat),
      (isDigit d1 && isDigit d2 && isDigit d3) = true → reservedB d1 d2 d3 = false →
      chunks.get? (digitsVal [d1, d2, d3] - 1) = none →
      sub2 chunks (64 :: d1 :: d2 :: d3 :: rest2) = Except.error DErr.badRef) ∧
    (∀ divO decO (x : List Nat) (version : Int)
      (head body foot key mstr : List Nat) (hrest : List (List Nat))
      (mkey : List (List Int)) (e : DErr) (b1 : List Nat),
      pyInt (x.take 3) = some version →
      pySplit 10 (x.drop 3) = [head, body, foot] →
      pySplit 47 head = key :: mstr :: hrest →
      parseMat mstr = some mkey →
      sub1 (matrix_fix divO mkey) body = Except.ok b1 →
      sub2 (List.insertionSort (· ≤ ·) hrest.dropLast) b1 = Except.error e →
      s_decompress divO decO x = Except.error e) := by
  refine ⟨?_, ?_, sub2_ref_oob, ?_⟩
  · intro divO decO x hcount
    unfold s_decompress
    cases hv : pyInt (x.take 3) with
    | none => left; rfl
    | some version =>
      right
      dsimp only
      have hlen := pySplit_length 10 (x.drop 3)
      cases hps : pySplit 10 (x.drop 3) with
      | nil => rfl
      | cons a t1 =>
        cases t1 with
        | nil => rfl
        | cons b t2 =>
          cases t2 with
          | nil => rfl
          | cons c t3 =>
            cases t3 with
            | nil =>
              exfalso
              rw [hps] at hlen
              simp at hlen
              omega
            | cons d t4 => rfl
  · intro divO decO x hv
    unfold s_decompress
    rw [hv]
  · intro divO decO x version head body foot key mstr hrest mkey e b1
      hv hsplit hhead hmat hb1 hb2
    unfold s_decompress
    rw [hv]
    dsimp only
    rw [hsplit]
    dsimp only
    rw [hhead]
    dsimp only
    rw [hmat]
    dsimp only
    rw [hb1]
    dsimp only
    rw [hb2]

/-- Witness for decompress_malformed_errors: the empty artifact fails with
a decode error (it has no separators and no numeric version), and an
out-of-range reference @005 against a one-chunk dictionary fails pass 2. -/
theorem decompress_malformed_errors_witness :
    (s_decompress (fun _ _ => none) (fun _ _ => none) [] =
        Except.error DErr.badVersion ∨
      s_decompress (fun _ _ => none) (fun _ _ => none) [] =
        Except.error DErr.badSections) ∧
    sub2 [[65]] (64 :: 48 :: 48 :: 53 :: []) = Except.error DErr.badRef := by
  constructor
  · exact decompress_malformed_errors.1 (fun _ _ => none) (fun _ _ => none) [] (by decide)
  · exact decompress_malformed_errors.2.2.1 [[65]] 48 48 53 [] (by decide) (by decide)
      (by decide)


/-- C1 counterexample: a reachable run of s_compress on the one-character
text made of a newline, with the valid key choice !wes! and the valid (but
singular) all-ones matrix key, in which the matrix draw fires on the
escaped newline token.  Decompressing the artifact with valid oracles (a
terminating matdiv run returning an alternative factor of the singular
system, and a terminating decrypt run) succeeds and returns the character
9 instead of the original newline: the pipeline does not round-trip even
though every randomized search loop terminated. -/
theorem compress_roundtrip_counterexample :
    ValidCompressChoices [33, 119, 101, 115, 33] [[1, 1, 1], [1, 1, 1], [1, 1, 1]] ∧
    DivOValid (fun c b =>
      if c = [[57, 57, 57], [6, 6, 6], [6, 6, 6]] ∧ b = [[1, 1, 1], [1, 1, 1], [1, 1, 1]] then
        some [[57, 0, 0], [6, 0, 0], [6, 0, 0]] else none) ∧
    DecOValid (fun e k =>
      if e = [67, 57] ∧ k = [33, 119, 101, 115, 33] then some [57] else none) ∧
    s_decompress
      (fun c b =>
        if c = [[57, 57, 57], [6, 6, 6], [6, 6, 6]] ∧ b = [[1, 1, 1], [1, 1, 1], [1, 1, 1]] then
          some [[57, 0, 0], [6, 0, 0], [6, 0, 0]] else none)
      (fun e k =>
        if e = [67, 57] ∧ k = [33, 119, 101, 115, 33] then some [57] else none)
      (s_compress [33, 119, 101, 115, 33] [[1, 1, 1], [1, 1, 1], [1, 1, 1]]
        (fun _ => false) (fun i => decide (i = 1)) [10]) = Except.ok [57] ∧
    ([57] : List Nat) ≠ [10] := by
  refine ⟨by unfold ValidCompressChoices; decide, ?_, ?_, by rfl, by decide⟩
  · intro c b cand h
    dsimp only at h
    by_cases hc : c = [[57, 57, 57], [6, 6, 6], [6, 6, 6]] ∧ b = [[1, 1, 1], [1, 1, 1], [1, 1, 1]]
    · rw [if_pos hc] at h
      obtain ⟨hc1, hc2⟩ := hc
      subst hc1
      subst hc2
      have hcand : cand = [[57, 0, 0], [6, 0, 0], [6, 0, 0]] := by
        injection h with hh
        exact hh.symm
      subst hcand
      unfold matdivRel
      decide
    · rw [if_neg hc] at h
      exact absurd h (by simp)
  · intro e k p h
    dsimp only at h
    by_cases hc : e = [67, 57] ∧ k = [33, 119, 101, 115, 33]
    · rw [if_pos hc] at h
      obtain ⟨hc1, hc2⟩ := hc
      subst hc1
      subst hc2
      have hp : p = [57] := by
        injection h with hh
        exact hh.symm
      subst hp
      refine ⟨by decide, ?_, by decide⟩
      intro j hj
      have h0 : j = 0 := Nat.lt_one_iff.mp (by simpa using hj)
      subst h0
      decide
    · rw [if_neg hc] at h
      exact absurd h (by simp)

/-! ## Invertibility of the 3 x 3 matrix key -/

/-- Determinant of a 3 x 3 integer matrix given as nested lists. -/
def det3 (m : List (List Int)) : Int :=
  let a : Nat → Nat → Int := fun i j => (m.getD i []).getD j 0
  a 0 0 * (a 1 1 * a 2 2 - a 1 2 * a 2 1)
    - a 0 1 * (a 1 0 * a 2 2 - a 1 2 * a 2 0)
    + a 0 2 * (a 1 0 * a 2 1 - a 1 1 * a 2 0)

theorem row3_explicit (r : List Int) (h : r.length = 3) :
    ∃ a b c, r = [a, b, c] := by
  match r, h with
  | [a, b, c], _ => exact ⟨a, b, c, rfl⟩

theorem shape3_explicit (m : List (List Int)) (h1 : m.length = 3)
    (h2 : ∀ r ∈ m, r.length = 3) :
    ∃ a b c d e f g h i, m = [[a, b, c], [d, e, f], [g, h, i]] := by
  match m, h1 with
  | [r0, r1, r2], _ =>
    obtain ⟨a, b, c, h0⟩ := row3_explicit r0 (h2 r0 (by simp))
    obtain ⟨d, e, f, hr1⟩ := row3_explicit r1 (h2 r1 (by simp))
    obtain ⟨g, h, i, hr2⟩ := row3_explicit r2 (h2 r2 (by simp))
    exact ⟨a, b, c, d, e, f, g, h, i, by rw [h0, hr1, hr2]⟩

theorem zipStar3 (m00 m01 m02 m10 m11 m12 m20 m21 m22 : Int) :
    zipStar [[m00, m01, m02], [m10, m11, m12], [m20, m21, m22]] =
      [[m00, m10, m20], [m01, m11, m21], [m02, m12, m22]] := rfl

theorem matmul33 (a00 a01 a02 a10 a11 a12 a20 a21 a22
    m00 m01 m02 m10 m11 m12 m20 m21 m22 : Int) :
    matmul [[a00, a01, a02], [a10, a11, a12], [a20, a21, a22]]
        [[m00, m01, m02], [m10, m11, m12], [m20, m21, m22]] =
      [[a00 * m00 + (a01 * m10 + (a02 * m20 + 0)),
        a00 * m01 + (a01 * m11 + (a02 * m21 + 0)),
        a00 * m02 + (a01 * m12 + (a02 * m22 + 0))],
       [a10 * m00 + (a11 * m10 + (a12 * m20 + 0)),
        a10 * m01 + (a11 * m11 + (a12 * m21 + 0)),
        a10 * m02 + (a11 * m12 + (a12 * m22 + 0))],
       [a20 * m00 + (a21 * m10 + (a22 * m20 + 0)),
        a20 * m01 + (a21 * m11 + (a22 * m21 + 0)),
        a20 * m02 + (a21 * m12 + (a22 * m22 + 0))]] := rfl

theorem row_cancel (m00 m01 m02 m10 m11 m12 m20 m21 m22 x0 x1 x2 y0 y1 y2 : Int)
    (hdet : m00 * (m11 * m22 - m12 * m21) - m01 * (m10 * m22 - m12 * m20)
      + m02 * (m10 * m21 - m11 * m20) ≠ 0)
    (h0 : x0 * m00 + x1 * m10 + x2 * m20 = y0 * m00 + y1 * m10 + y2 * m20)
    (h1 : x0 * m01 + x1 * m11 + x2 * m21 = y0 * m01 + y1 * m11 + y2 * m21)
    (h2 : x0 * m02 + x1 * m12 + x2 * m22 = y0 * m02 + y1 * m12 + y2 * m22) :
    x0 = y0 ∧ x1 = y1 ∧ x2 = y2 := by
  have d := hdet
  refine ⟨?_, ?_, ?_⟩
  · have key : (x0 - y0) * (m00 * (m11 * m22 - m12 * m21)
        - m01 * (m10 * m22 - m12 * m20) + m02 * (m10 * m21 - m11 * m20)) = 0 := by
      linear_combination (m11 * m22 - m12 * m21) * h0 - (m10 * m22 - m12 * m20) * h1
        + (m10 * m21 - m11 * m20) * h2
    rcases mul_eq_zero.mp key with h | h
    · linarith
    · exact absurd h hdet
  · have key : (x1 - y1) * (m00 * (m11 * m22 - m12 * m21)
        - m01 * (m10 * m22 - m12 * m20) + m02 * (m10 * m21 - m11 * m20)) = 0 := by
      linear_combination (-(m01 * m22 - m02 * m21)) * h0 + (m00 * m22 - m02 * m20) * h1
        - (m00 * m21 - m01 * m20) * h2
    rcases mul_eq_zero.mp key with h | h
    · linarith
    · exact absurd h hdet
  · have key : (x2 - y2) * (m00 * (m11 * m22 - m12 * m21)
        - m01 * (m10 * m22 - m12 * m20) + m02 * (m10 * m21 - m11 * m20)) = 0 := by
      linear_combination (m01 * m12 - m02 * m11) * h0 - (m00 * m12 - m02 * m10) * h1
        + (m00 * m11 - m01 * m10) * h2
    rcases mul_eq_zero.mp key with h | h
    · linarith
    · exact absurd h hdet

theorem matmul_cancel3 (m a b : List (List Int))
    (hm1 : m.length = 3) (hm2 : ∀ r ∈ m, r.length = 3)
    (ha1 : a.length = 3) (ha2 : ∀ r ∈ a, r.length = 3)
    (hb1 : b.length = 3) (hb2 : ∀ r ∈ b, r.length = 3)
    (hdet : det3 m ≠ 0)
    (h : matmul a m = matmul b m) : a = b := by
  obtain ⟨m00, m01, m02, m10, m11, m12, m20, m21, m22, hme⟩ := shape3_explicit m hm1 hm2
  obtain ⟨a00, a01, a02, a10, a11, a12, a20, a21, a22, hae⟩ := shape3_explicit a ha1 ha2
  obtain ⟨b00, b01, b02, b10, b11, b12, b20, b21, b22, hbe⟩ := shape3_explicit b hb1 hb2
  subst hme hae hbe
  rw [matmul33, matmul33] at h
  have hdet2 : m00 * (m11 * m22 - m12 * m21) - m01 * (m10 * m22 - m12 * m20)
      + m02 * (m10 * m21 - m11 * m20) ≠ 0 := by
    intro hz
    exact hdet (by unfold det3; simpa using hz)
  simp only [List.cons.injEq, and_true] at h
  obtain ⟨⟨e00, e01, e02⟩, ⟨e10, e11, e12⟩, e20, e21, e22⟩ := h
  obtain ⟨f0, f1, f2⟩ := row_cancel m00 m01 m02 m10 m11 m12 m20 m21 m22
    a00 a01 a02 b00 b01 b02 hdet2 (by linarith) (by linarith) (by linarith)
  obtain ⟨g0, g1, g2⟩ := row_cancel m00 m01 m02 m10 m11 m12 m20 m21 m22
    a10 a11 a12 b10 b11 b12 hdet2 (by linarith) (by linarith) (by linarith)
  obtain ⟨k0, k1, k2⟩ := row_cancel m00 m01 m02 m10 m11 m12 m20 m21 m22
    a20 a21 a22 b20 b21 b22 hdet2 (by linarith) (by linarith) (by linarith)
  rw [f0, f1, f2, g0, g1, g2, k0, k1, k2]

/-! ## The token code is prefix-free, so joining preserves order -/

theorem tok_ne_nil (t : List Nat) (h : IsTok t) : t ≠ [] := by
  rcases h with h | h | h | ⟨c, -, -, -, h⟩ <;> subst h <;> simp

theorem tok_not_pref (t s : List Nat) (ht : IsTok t) (hs : IsTok s) (hne : t ≠ s) :
    ¬ t <+: s := by
  rcases ht with h | h | h | ⟨c, hc1, hc2, hc3, h⟩ <;>
    rcases hs with h2 | h2 | h2 | ⟨d, hd1, hd2, hd3, h2⟩ <;> subst h <;> subst h2 <;>
    intro hp <;>
    first
    | exact hne rfl
    | · rcases List.cons_prefix_cons.mp hp with ⟨he, -⟩
        omega
    | · rcases List.cons_prefix_cons.mp hp with ⟨he, hp2⟩
        rcases List.cons_prefix_cons.mp hp2 with ⟨he2, hp3⟩
        rcases List.cons_prefix_cons.mp hp3 with ⟨he3, hp4⟩
        simp at hp4
        omega
    | · simp at hp
        omega
    | · rcases List.cons_prefix_cons.mp hp with ⟨he, hp2⟩
        simp at hp2
    | · rcases List.cons_prefix_cons.mp hp with ⟨he, -⟩
        exact hne (by rw [he])

theorem append_lt_append_left (c : List Nat) :
    ∀ x y : List Nat, x < y → c ++ x < c ++ y := by
  induction c with
  | nil => intro x y h; exact h
  | cons a c2 ih =>
    intro x y h
    exact List.Lex.cons (ih x y h)

theorem lt_append_of_lt_not_pref :
    ∀ t s x y : List Nat, t < s → ¬ t <+: s → t ++ x < s ++ y := by
  intro t
  induction t with
  | nil => intro s x y h hp; exact absurd (List.nil_prefix) hp
  | cons a t2 ih =>
    intro s x y h hp
    cases s with
    | nil => cases h
    | cons b s2 =>
      cases h with
      | rel hr => exact List.Lex.rel hr
      | cons h2 =>
        apply List.Lex.cons
        apply ih s2 x y h2
        intro hp2
        exact hp (List.cons_prefix_cons.mpr ⟨rfl, hp2⟩)

theorem join_lt_join :
    ∀ u v : List (List Nat), (∀ t ∈ u, IsTok t) → (∀ t ∈ v, IsTok t) →
      u < v → u.join < v.join := by
  intro u
  induction u with
  | nil =>
    intro v hu hv h
    cases v with
    | nil => cases h
    | cons s v2 =>
      have hs := tok_ne_nil s (hv s (by simp))
      cases s with
      | nil => exact absurd rfl hs
      | cons b s2 => exact List.Lex.nil
  | cons t u2 ih =>
    intro v hu hv h
    cases v with
    | nil => cases h
    | cons s v2 =>
      cases h with
      | cons h2 =>
        simp only [List.join_cons]
        exact append_lt_append_left t _ _
          (ih v2 (fun x hx => hu x (by simp [hx])) (fun x hx => hv x (by simp [hx])) h2)
      | rel hr =>
        by_cases he : t = s
        · subst he
          exact absurd hr (lt_irrefl t)
        · simp only [List.join_cons]
          exact lt_append_of_lt_not_pref t s _ _ hr
            (tok_not_pref t s (hu t (by simp)) (hv s (by simp)) he)

theorem join_le_join (u v : List (List Nat)) (hu : ∀ t ∈ u, IsTok t)
    (hv : ∀ t ∈ v, IsTok t) (h : u ≤ v) : u.join ≤ v.join := by
  rcases lt_or_eq_of_le h with h2 | h2
  · exact le_of_lt (join_lt_join u v hu hv h2)
  · rw [h2]

instance : IsTrans (Nat × List (List Nat)) chunkKeyLe := by
  constructor
  intro a b c hab hbc
  unfold chunkKeyLe at *
  rcases hab with h1 | ⟨h1, h1b⟩ <;> rcases hbc with h2 | ⟨h2, h2b⟩
  · exact Or.inl (lt_trans h1 h2)
  · exact Or.inl (h2 ▸ h1)
  · exact Or.inl (h1 ▸ h2)
  · exact Or.inr ⟨h1.trans h2, le_trans h1b h2b⟩

instance : IsTotal (Nat × List (List Nat)) chunkKeyLe := by
  constructor
  intro a b
  unfold chunkKeyLe
  rcases lt_trichotomy a.2 b.2 with h | h | h
  · exact Or.inl (Or.inl h)
  · rcases Nat.le_total a.1 b.1 with h2 | h2
    · exact Or.inl (Or.inr ⟨h, h2⟩)
    · exact Or.inr (Or.inr ⟨h.symm, h2⟩)
  · exact Or.inr (Or.inl h)

theorem mem_enumFrom_snd {α : Type} :
    ∀ (l : List α) (n : Nat) (p : Nat × α), p ∈ List.enumFrom n l → p.2 ∈ l := by
  intro l
  induction l with
  | nil => intro n p hp; simp [List.enumFrom] at hp
  | cons a l2 ih =>
    intro n p hp
    rw [List.enumFrom] at hp
    rcases List.mem_cons.mp hp with hp | hp
    · subst hp
      simp
    · exact List.mem_cons_of_mem a (ih (n + 1) p hp)

theorem sortedIndices_mem_snd (lc : List (List (List Nat))) (p : Nat × List (List Nat))
    (hp : p ∈ sortedIndices lc) : p.2 ∈ lc := by
  have h2 : p ∈ lc.enum := (List.perm_insertionSort chunkKeyLe lc.enum).subset hp
  exact mem_enumFrom_snd lc 0 p h2

theorem sortedTexts_eq (lc : List (List (List Nat)))
    (htoks : ∀ ch ∈ lc, ∀ t ∈ ch, IsTok t) :
    List.insertionSort (· ≤ ·) (lc.map List.join) =
      (sortedIndices lc).map (fun p => p.2.join) := by
  have hmap : (lc.enum.map (fun p => p.2.join)) = lc.map List.join := by
    have h1 : lc.enum.map (fun p : Nat × List (List Nat) => p.2.join) =
        (lc.enum.map Prod.snd).map List.join := by
      rw [List.map_map]
      rfl
    rw [h1, List.enum_map_snd]
  have hperm : List.Perm (List.insertionSort (· ≤ ·) (lc.map List.join))
      ((sortedIndices lc).map (fun p => p.2.join)) := by
    have h2 := ((List.perm_insertionSort chunkKeyLe lc.enum).map
      (fun p : Nat × List (List Nat) => p.2.join)).symm
    rw [hmap] at h2
    exact (List.perm_insertionSort _ _).trans h2
  haveI : IsAntisymm (List ℕ) (· ≤ ·) := ⟨fun a b h1 h2 => le_antisymm h1 h2⟩
  have hs1 : List.Sorted (· ≤ ·) (List.insertionSort (· ≤ ·) (lc.map List.join)) :=
    List.sorted_insertionSort _ _
  apply List.eq_of_perm_of_sorted hperm hs1
  · rw [List.Sorted, List.pairwise_map]
    apply List.Pairwise.imp_of_mem ?_ (List.sorted_insertionSort chunkKeyLe lc.enum)
    intro a b ha hb hab
    have ha2 := sortedIndices_mem_snd lc a ha
    have hb2 := sortedIndices_mem_snd lc b hb
    apply join_le_join a.2 b.2 (htoks a.2 ha2) (htoks b.2 hb2)
    rcases hab with h | ⟨h, -⟩
    · exact le_of_lt h
    · exact le_of_eq h

/-! ## Character sets of the artifact sections -/

theorem digit_clean (x : Nat) (h : isDigit x = true) : x ≠ 10 ∧ x ≠ 47 := by
  unfold isDigit at h
  simp at h
  omega

theorem keyChoices_clean (key : List Nat) (hk : key ∈ keyChoices) :
    ∀ x ∈ key, x ≠ 10 ∧ x ≠ 47 ∧ x ≤ 127 := by
  simp only [keyChoices, List.mem_cons, List.not_mem_nil, or_false] at hk
  rcases hk with h | h | h | h | h <;> subst h <;> decide

theorem intRepr_chars (z : Int) : ∀ x ∈ intRepr z, x = 45 ∨ isDigit x = true := by
  intro x hx
  unfold intRepr at hx
  split at hx
  · rcases List.mem_cons.mp hx with h | h
    · exact Or.inl h
    · exact Or.inr (natDec_digits _ x h)
  · exact Or.inr (natDec_digits _ x hx)

theorem joinSep_mem (sep : List Nat) :
    ∀ (L : List (List Nat)) (x : Nat), x ∈ joinSep L sep →
      (∃ l ∈ L, x ∈ l) ∨ x ∈ sep := by
  intro L
  induction L with
  | nil => intro x hx; simp [joinSep] at hx
  | cons a L2 ih =>
    intro x hx
    cases L2 with
    | nil =>
      simp only [joinSep] at hx
      exact Or.inl ⟨a, by simp, hx⟩
    | cons b L3 =>
      rw [joinSep] at hx
      rcases List.mem_append.mp hx with hx | hx
      · rcases List.mem_append.mp hx with hx | hx
        · exact Or.inl ⟨a, by simp, hx⟩
        · exact Or.inr hx
      · rcases ih x hx with ⟨l, hl, hxl⟩ | hx
        · exact Or.inl ⟨l, by simp [hl], hxl⟩
        · exact Or.inr hx

theorem reprRow_clean (r : List Int) : ∀ x ∈ reprRow r, x ≠ 10 ∧ x ≠ 47 := by
  intro x hx
  unfold reprRow at hx
  rcases List.mem_append.mp hx with hx | hx
  · rcases List.mem_append.mp hx with hx | hx
    · simp at hx
      omega
    · rcases joinSep_mem _ _ x hx with ⟨l, hl, hxl⟩ | hx
      · rw [List.mem_map] at hl
        obtain ⟨z, -, hz⟩ := hl
        rw [← hz] at hxl
        rcases intRepr_chars z x hxl with h | h
        · omega
        · exact digit_clean x h
      · simp at hx
        omega
  · simp at hx
    omega

theorem reprMat_clean (m : List (List Int)) : ∀ x ∈ reprMat m, x ≠ 10 ∧ x ≠ 47 := by
  intro x hx
  unfold reprMat at hx
  rcases List.mem_append.mp hx with hx | hx
  · rcases List.mem_append.mp hx with hx | hx
    · simp at hx
      omega
    · rcases joinSep_mem _ _ x hx with ⟨l, hl, hxl⟩ | hx
      · rw [List.mem_map] at hl
        obtain ⟨row, -, hrow⟩ := hl
        rw [← hrow] at hxl
        exact reprRow_clean row x hxl
      · simp at hx
        omega
  · simp at hx
    omega

theorem hexlify_chars : ∀ (l : List Nat), ∀ x ∈ hexlify l, 48 ≤ x := by
  intro l
  induction l with
  | nil => intro x hx; simp [hexlify] at hx
  | cons b rest ih =>
    intro x hx
    rw [hexlify] at hx
    rcases List.mem_append.mp hx with hx | hx
    · unfold hexByte hexDigit at hx
      rcases List.mem_cons.mp hx with h | h
      · subst h
        split <;> omega
      · simp at h
        subst h
        split <;> omega
    · exact ih x hx

theorem securehash_clean (p : List Nat) : ∀ x ∈ s_securehash p, x ≠ 10 := by
  intro x hx
  have := hexlify_chars _ x hx
  omega

theorem tok_clean (t : List Nat) (h : IsTok t) : ∀ x ∈ t, x ≠ 10 ∧ x ≠ 47 := by
  rcases h with h | h | h | ⟨c, hc1, hc2, hc3, h⟩ <;> subst h <;> intro x hx <;> simp at hx
  · omega
  · omega
  · omega
  · subst hx
    exact ⟨hc2, hc3⟩

/-! ## Splitting the rendered artifact back into sections and fields -/

theorem pySplit_ne_nil (sep : Nat) (l : List Nat) : pySplit sep l ≠ [] := by
  intro h
  have := pySplit_length sep l
  rw [h] at this
  simp at this

theorem pySplit_nosep (sep : Nat) (A : List Nat) (hA : ∀ x ∈ A, x ≠ sep) :
    pySplit sep A = [A] := by
  induction A with
  | nil => rfl
  | cons c rest ih =>
    rw [pySplit, if_neg (hA c (by simp))]
    rw [ih (fun x hx => hA x (by simp [hx]))]

theorem pySplit_append_nosep (sep : Nat) (A B : List Nat) (hA : ∀ x ∈ A, x ≠ sep) :
    pySplit sep (A ++ sep :: B) = A :: pySplit sep B := by
  induction A with
  | nil =>
    simp only [List.nil_append]
    rw [pySplit, if_pos rfl]
  | cons c rest ih =>
    simp only [List.cons_append]
    rw [pySplit, if_neg (hA c (by simp))]
    rw [ih (fun x hx => hA x (by simp [hx]))]

/-! ## The reference-rewriting pass on the three part shapes -/

theorem rewritePart_64 (indices : List (Nat × List (List Nat))) (tail : List Nat) :
    rewritePart indices (64 :: tail) =
      match pyInt tail with
      | some rest =>
        match (List.range indices.length).find?
            (fun cv => (((indices.getD cv (0, [])).1 : Int)) == rest - 1) with
        | some cv => 64 :: pad3 (cv + 1)
        | none => 64 :: tail
      | none => 64 :: tail := rfl

theorem rewritePart_not64 (indices : List (Nat × List (List Nat))) (c : Nat)
    (rest : List Nat) (hc : c ≠ 64) : rewritePart indices (c :: rest) = c :: rest := by
  unfold rewritePart
  cases rest <;> simp [hc]

theorem mem_enumFrom_fst {α : Type} :
    ∀ (l : List α) (n : Nat) (p : Nat × α), p ∈ List.enumFrom n l →
      n ≤ p.1 ∧ p.1 < n + l.length := by
  intro l
  induction l with
  | nil => intro n p hp; simp [List.enumFrom] at hp
  | cons a l2 ih =>
    intro n p hp
    rw [List.enumFrom] at hp
    rcases List.mem_cons.mp hp with hp | hp
    · subst hp
      simp
    · have := ih (n + 1) p hp
      simp only [List.length_cons]
      omega

theorem sortedIndices_fst_lt (lc : List (List (List Nat))) (p : Nat × List (List Nat))
    (hp : p ∈ sortedIndices lc) : p.1 < lc.length := by
  have h2 : p ∈ lc.enum := (List.perm_insertionSort chunkKeyLe lc.enum).subset hp
  have := mem_enumFrom_fst lc 0 p h2
  omega

theorem enumFrom_getD {α : Type} (d : α) :
    ∀ (l : List α) (n j : Nat), j < l.length →
      (List.enumFrom n l).getD j (0, d) = (n + j, l.getD j d) := by
  intro l
  induction l with
  | nil => intro n j hj; simp at hj
  | cons a l2 ih =>
    intro n j hj
    cases j with
    | zero => simp [List.enumFrom]
    | succ j2 =>
      rw [List.enumFrom]
      simp only [List.getD_cons_succ]
      rw [ih (n + 1) j2 (by simpa using hj)]
      have : n + 1 + j2 = n + (j2 + 1) := by omega
      rw [this]

theorem rewritePart_escape (lc : List (List (List Nat))) (hlen : lc.length ≤ 997)
    (t : List Nat) (ht : t = [64, 48, 48, 48] ∨ t = [64, 57, 57, 57] ∨ t = [64, 57, 57, 56]) :
    rewritePart (sortedIndices lc) t = t := by
  have hnone : ∀ z : Int, z = -1 ∨ z = 998 ∨ z = 997 →
      (List.range (sortedIndices lc).length).find?
        (fun cv => (((sortedIndices lc).getD cv (0, [])).1 : Int) == z) = none := by
    intro z hz
    rw [List.find?_eq_none]
    intro cv hcv
    rw [List.mem_range] at hcv
    have hmem : (sortedIndices lc).getD cv (0, []) ∈ sortedIndices lc := by
      rw [List.getD_eq_getElem _ _ hcv]
      exact List.getElem_mem hcv
    have hlt := sortedIndices_fst_lt lc _ hmem
    simp only [beq_iff_eq]
    intro heq
    omega
  rcases ht with h | h | h <;> subst h <;> rw [rewritePart_64]
  · have hv : pyInt [48, 48, 48] = some 0 := by rfl
    rw [hv]
    dsimp only
    rw [hnone (0 - 1) (by norm_num)]
  · have hv : pyInt [57, 57, 57] = some 999 := by rfl
    rw [hv]
    dsimp only
    rw [hnone (999 - 1) (by norm_num)]
  · have hv : pyInt [57, 57, 56] = some 998 := by rfl
    rw [hv]
    dsimp only
    rw [hnone (998 - 1) (by norm_num)]

theorem rewritePart_ref (lc : List (List (List Nat))) (k : Nat) (hk1 : 1 ≤ k)
    (hk2 : k ≤ lc.length) :
    ∃ cv, cv < lc.length ∧
      (sortedIndices lc).getD cv (0, []) = (k - 1, lc.getD (k - 1) []) ∧
      rewritePart (sortedIndices lc) (refPart k) = refPart (cv + 1) := by
  have hklt : k - 1 < lc.length := by omega
  have hpair : (k - 1, lc.getD (k - 1) []) ∈ sortedIndices lc := by
    apply (List.perm_insertionSort chunkKeyLe lc.enum).mem_iff.mpr
    have := enumFrom_getD ([] : List (List Nat)) lc 0 (k - 1) hklt
    rw [Nat.zero_add] at this
    rw [List.enum]
    rw [← this]
    rw [List.getD_eq_getElem _ _ (by simpa [List.enumFrom_length] using hklt)]
    exact List.getElem_mem _
  obtain ⟨idx, hidx, hidxeq⟩ := List.mem_iff_getElem.mp hpair
  have hfind : ((List.range (sortedIndices lc).length).find?
      (fun cv => (((sortedIndices lc).getD cv (0, [])).1 : Int) == (k : Int) - 1)).isSome := by
    rw [List.find?_isSome]
    refine ⟨idx, by rw [List.mem_range]; exact hidx, ?_⟩
    rw [List.getD_eq_getElem _ _ hidx, hidxeq]
    simp only [beq_iff_eq]
    omega
  obtain ⟨cv, hcv⟩ := Option.isSome_iff_exists.mp hfind
  have hcvlt2 : cv < (sortedIndices lc).length := by
    have := List.mem_of_find?_eq_some hcv
    rwa [List.mem_range] at this
  have hcvlt : cv < lc.length := by rwa [sortedIndices_length] at hcvlt2
  have hcvp := List.find?_some hcv
  simp only [beq_iff_eq] at hcvp
  have hcvfst : ((sortedIndices lc).getD cv (0, [])).1 = k - 1 := by omega
  have hnodup : ((sortedIndices lc).map Prod.fst).Nodup := by
    unfold sortedIndices
    have hperm := (List.perm_insertionSort chunkKeyLe lc.enum).map Prod.fst
    rw [hperm.nodup_iff, List.enum_map_fst lc]
    exact List.nodup_range _
  have hmem_cv : (sortedIndices lc).getD cv (0, []) ∈ sortedIndices lc := by
    rw [List.getD_eq_getElem _ _ hcvlt2]
    exact List.getElem_mem hcvlt2
  have heq : (sortedIndices lc).getD cv (0, []) = (k - 1, lc.getD (k - 1) []) :=
    List.inj_on_of_nodup_map hnodup hmem_cv hpair (by rw [hcvfst])
  refine ⟨cv, hcvlt, heq, ?_⟩
  unfold refPart
  have hred : pyInt (pad3 k) = some ((k : Nat) : Int) := (pyInt_pad3 k).trans rfl
  rw [rewritePart_64, hred]
  dsimp only
  rw [hcv]

/-! ## Small facts about ranks, reserved codes and the passes -/

theorem natDec_len_le3 (n : Nat) (h : n ≤ 999) : (natDec n).length ≤ 3 := by
  rw [natDec_eq]
  split
  · simp
  · rw [natDec_eq]
    have h10 : n / 10 ≤ 99 := by omega
    split
    · simp
    · rw [natDec_eq]
      have h100 : n / 10 / 10 ≤ 9 := by omega
      rw [if_pos (by omega)]
      simp

theorem pad3_len3 (n : Nat) (h : n ≤ 999) : (pad3 n).length = 3 := by
  unfold pad3
  have := natDec_len_le3 n h
  simp
  omega

theorem row3N_explicit (r : List Nat) (h : r.length = 3) :
    ∃ a b c, r = [a, b, c] := by
  match r, h with
  | [a, b, c], _ => exact ⟨a, b, c, rfl⟩

theorem pad3_explicit (n : Nat) (h : n ≤ 999) :
    ∃ d1 d2 d3, pad3 n = [d1, d2, d3] ∧
      (isDigit d1 && isDigit d2 && isDigit d3) = true ∧
      digitsVal [d1, d2, d3] = n := by
  obtain ⟨d1, d2, d3, hd⟩ := row3N_explicit (pad3 n) (pad3_len3 n h)
  refine ⟨d1, d2, d3, hd, ?_, ?_⟩
  · have hdig := pad3_digits n
    rw [hd] at hdig
    have h1 := hdig d1 (by simp)
    have h2 := hdig d2 (by simp)
    have h3 := hdig d3 (by simp)
    rw [h1, h2, h3]
    rfl
  · rw [← hd]
    exact digitsVal_pad3 n

theorem reservedB_val (d1 d2 d3 : Nat) (h : reservedB d1 d2 d3 = true) :
    digitsVal [d1, d2, d3] = 0 ∨ digitsVal [d1, d2, d3] = 998 ∨
      digitsVal [d1, d2, d3] = 999 := by
  unfold reservedB at h
  simp only [Bool.or_eq_true, Bool.and_eq_true, beq_iff_eq] at h
  rcases h with (⟨⟨h1, h2⟩, h3⟩ | ⟨⟨h1, h2⟩, h3⟩) | ⟨⟨h1, h2⟩, h3⟩ <;>
    subst h1 <;> subst h2 <;> subst h3 <;> simp [digitsVal]

theorem reservedB_rank (d1 d2 d3 : Nat) (h1 : 1 ≤ digitsVal [d1, d2, d3])
    (h2 : digitsVal [d1, d2, d3] ≤ 997) : reservedB d1 d2 d3 = false := by
  cases hres : reservedB d1 d2 d3
  · rfl
  · rcases reservedB_val d1 d2 d3 hres with h | h | h <;> omega

theorem sub1_append_left (fix : List Nat → Except DErr (List Nat)) (A rest : List Nat)
    (hA : ∀ x ∈ A, x ≠ 47) :
    sub1 fix (A ++ rest) = (sub1 fix rest).map (fun t => A ++ t) := by
  induction A with
  | nil =>
    simp only [List.nil_append]
    cases sub1 fix rest <;> simp [Except.map]
  | cons a A2 ih =>
    simp only [List.cons_append]
    rw [sub1_cons_nos fix a (A2 ++ rest) (hA a (by simp))]
    rw [ih (fun x hx => hA x (by simp [hx]))]
    cases sub1 fix rest <;> simp [Except.map]

theorem findClose_of_clean :
    ∀ (int : List Nat), int ≠ [] → (∀ x ∈ int, x ≠ 10 ∧ x ≠ 47) →
      ∀ rem, findClose (int ++ 47 :: rem) = some (int, rem) := by
  intro int
  induction int with
  | nil => intro h; exact absurd rfl h
  | cons a int2 ih =>
    intro hne hcl rem
    cases int2 with
    | nil =>
      simp only [List.cons_append, List.nil_append]
      rw [findClose]
      rw [if_neg (hcl a (by simp)).1, if_pos rfl]
    | cons b int3 =>
      have hstep : (a :: b :: int3) ++ 47 :: rem = a :: b :: (int3 ++ 47 :: rem) := by simp
      rw [hstep, findClose]
      rw [if_neg (hcl a (by simp)).1, if_neg (hcl b (by simp)).2]
      have := ih (by simp) (fun x hx => hcl x (by simp [hx])) rem
      simp only [List.cons_append] at this
      rw [this]
      rfl

theorem sub3_escape_join :
    ∀ l : List Nat, sub3 ((l.map escapeTok).join) = l := by
  intro l
  induction l with
  | nil => rfl
  | cons c rest ih =>
    simp only [List.map_cons, List.join_cons]
    by_cases h64 : c = 64
    · subst h64
      have he : escapeTok 64 = [64, 48, 48, 48] := rfl
      rw [he]
      have : ([64, 48, 48, 48] : List Nat) ++ ((rest.map escapeTok).join) =
          64 :: 48 :: 48 :: 48 :: ((rest.map escapeTok).join) := rfl
      rw [this, sub3_code 48 48 48 _ (by decide)]
      rw [ih]
      norm_num
    · by_cases h10 : c = 10
      · subst h10
        have he : escapeTok 10 = [64, 57, 57, 57] := rfl
        rw [he]
        have : ([64, 57, 57, 57] : List Nat) ++ ((rest.map escapeTok).join) =
            64 :: 57 :: 57 :: 57 :: ((rest.map escapeTok).join) := rfl
        rw [this, sub3_code 57 57 57 _ (by decide)]
        rw [ih]
        norm_num
      · by_cases h47 : c = 47
        · subst h47
          have he : escapeTok 47 = [64, 57, 57, 56] := rfl
          rw [he]
          have : ([64, 57, 57, 56] : List Nat) ++ ((rest.map escapeTok).join) =
              64 :: 57 :: 57 :: 56 :: ((rest.map escapeTok).join) := rfl
          rw [this, sub3_code 57 57 56 _ (by decide)]
          rw [ih]
          norm_num
        · have he : escapeTok c = [c] := by
            unfold escapeTok
            rw [if_neg h64, if_neg h10, if_neg h47]
          rw [he]
          have : ([c] : List Nat) ++ ((rest.map escapeTok).join) =
              c :: ((rest.map escapeTok).join) := rfl
          rw [this, sub3_cons_notat c _ h64, ih]

/-! ## Tokens entering and leaving the scan -/

theorem scanLoop_lc_prop (cq mq : Nat → Bool) (m : List (List Int))
    (P : List Nat → Prop) :
    ∀ n toks i chunks, toks.length ≤ n → (∀ t ∈ toks, P t) →
      ∀ ch ∈ (scanLoop cq mq m i chunks toks).lc, ∀ t ∈ ch, P t := by
  intro n
  induction n with
  | zero =>
    intro toks i chunks hlen htoks ch hch
    have : toks = [] := List.eq_nil_of_length_eq_zero (by omega)
    subst this
    simp [scanLoop_nil] at hch
  | succ n2 ih =>
    intro toks i chunks hlen htoks ch hch
    cases toks with
    | nil => simp [scanLoop_nil] at hch
    | cons t rest =>
      rw [scanLoop_cons] at hch
      by_cases h997 : 997 ≤ chunks
      · simp only [if_pos h997] at hch
        simp at hch
      · simp only [if_neg h997] at hch
        by_cases hcq : 5 < (t :: rest).length ∧ cq i = true
        · simp only [if_pos hcq] at hch
          simp only [List.mem_cons] at hch
          rcases hch with hch | hch
          · subst hch
            intro tk htk
            exact htoks tk (List.mem_of_mem_take htk)
          · exact ih ((t :: rest).drop 5) (i + 5) (chunks + 1)
              (by simp at hlen ⊢; omega)
              (fun tk htk => htoks tk (List.mem_of_mem_drop htk)) ch hch
        · simp only [if_neg hcq] at hch
          by_cases hmq : mq i = true
          · simp only [if_pos hmq] at hch
            exact ih rest (i + 1) chunks (by simp at hlen; omega)
              (fun tk htk => htoks tk (by simp [htk])) ch hch
          · simp only [if_neg hmq] at hch
            exact ih rest (i + 1) chunks (by simp at hlen; omega)
              (fun tk htk => htoks tk (by simp [htk])) ch hch

theorem getD_le_of_all (l : List Nat) (n b : Nat) (h : ∀ x ∈ l, x ≤ b) :
    l.getD n 0 ≤ b := by
  by_cases hn : n < l.length
  · rw [List.getD_eq_getElem _ _ hn]
    exact h _ (List.getElem_mem hn)
  · rw [List.getD_eq_default _ _ (by omega)]
    omega

theorem s_encryptAux_bound (key : List Nat) (hkey : ∀ k ∈ key, k ≤ 1114111) :
    ∀ p i, (∀ c ∈ p, c ≤ 1114111) → ∀ x ∈ s_encryptAux key i p, x ≤ 1114111 := by
  intro p
  induction p with
  | nil => intro i hp x hx; simp [s_encryptAux] at hx
  | cons c rest ih =>
    intro i hp x hx
    rw [s_encryptAux] at hx
    rcases List.mem_append.mp hx with hx | hx
    · have he : key.getD (i % key.length) 0 ≤ 1114111 := getD_le_of_all key _ _ hkey
      have hc : c ≤ 1114111 := hp c (by simp)
      unfold encPair at hx
      split at hx
      · simp only [List.mem_cons, List.not_mem_nil, or_false] at hx
        rcases hx with hx | hx <;> omega
      · split at hx <;> simp only [List.mem_cons, List.not_mem_nil, or_false] at hx <;>
          rcases hx with hx | hx <;> omega
    · exact ih (i + 1) (fun y hy => hp y (by simp [hy])) x hx

theorem toks_prop (s key : List Nat) (hs : ∀ c ∈ s, c ≤ 1114111)
    (hkey : ∀ k ∈ key, k ≤ 1114111) :
    ∀ t ∈ (s_encrypt s key).map escapeTok, IsTok t ∧ ∀ x ∈ t, x ≤ 1114111 := by
  intro t ht
  rw [List.mem_map] at ht
  obtain ⟨c, hc, hct⟩ := ht
  have hcb : c ≤ 1114111 := s_encryptAux_bound key hkey s 0 hs c hc
  subst hct
  refine ⟨escapeTok_isTok c, ?_⟩
  intro x hx
  unfold escapeTok at hx
  split at hx
  · simp at hx
    omega
  · split at hx
    · simp at hx
      omega
    · split at hx
      · simp at hx
        omega
      · simp at hx
        omega

theorem lst1For_lit (c : Nat) (hc : c ≠ 64) :
    lst1For [c] = [[(c : Int), 0, 0], [1, 2, 3], [3, 2, 1]] := by
  unfold lst1For
  simp [hc]

/-- On a well-formed matrix part built from a token, the decoder's
matrix_fix callback either hangs (the division oracle never terminates) or
recovers exactly the original token: the matrix key is invertible, so the
only candidate solution is the seed matrix the compressor multiplied. -/
theorem matrix_fix_token (divO : List (List Int) → List (List Int) → Option (List (List Int)))
    (hdiv : DivOValid divO) (mkey : List (List Int))
    (hm1 : mkey.length = 3) (hm2 : ∀ r ∈ mkey, r.length = 3)
    (hdet : det3 mkey ≠ 0) (t : List Nat) (ht : IsTok t)
    (hbound : ∀ x ∈ t, x ≤ 1114111) :
    matrix_fix divO mkey (reprMat (matmul (lst1For t) mkey)) = Except.error DErr.hang ∨
    matrix_fix divO mkey (reprMat (matmul (lst1For t) mkey)) = Except.ok t := by
  obtain ⟨m00, m01, m02, m10, m11, m12, m20, m21, m22, hme⟩ := shape3_explicit mkey hm1 hm2
  have hl1 : (lst1For t).length = 3 ∧ ∀ r ∈ lst1For t, r.length = 3 := by
    rcases ht with h | h | h | ⟨c, hc1, -, -, h⟩ <;> subst h
    · exact ⟨rfl, by decide⟩
    · exact ⟨rfl, by decide⟩
    · exact ⟨rfl, by decide⟩
    · rw [lst1For_lit c hc1]
      refine ⟨rfl, ?_⟩
      intro r hr
      rcases List.mem_cons.mp hr with h | h
      · subst h; rfl
      · rcases List.mem_cons.mp h with h | h
        · subst h; rfl
        · rcases List.mem_cons.mp h with h | h
          · subst h; rfl
          · simp at h
  have hMlen : (matmul (lst1For t) mkey).length = 3 := by
    unfold matmul
    rw [List.length_map]
    exact hl1.1
  have hMrows : ∀ r ∈ matmul (lst1For t) mkey, r.length = 3 := by
    intro r hr
    unfold matmul at hr
    rw [List.mem_map] at hr
    obtain ⟨row, -, hrow⟩ := hr
    rw [← hrow, List.length_map, hme, zipStar3]
    rfl
  have hMne : matmul (lst1For t) mkey ≠ [] := by
    intro h
    rw [h] at hMlen
    simp at hMlen
  have hpm : parseMat (reprMat (matmul (lst1For t) mkey)) = some (matmul (lst1For t) mkey) :=
    parseMat_reprMat _ hMne (fun r hr => by
      intro hnil
      have := hMrows r hr
      rw [hnil] at this
      simp at this)
  unfold matrix_fix
  rw [hpm]
  dsimp only
  cases hdo : divO (matmul (lst1For t) mkey) mkey with
  | none => left; rfl
  | some soln =>
    obtain ⟨hs1, hs2, hs3⟩ := hdiv _ _ _ hdo
    have hslen : soln.length = 3 := by
      rw [hs1, hme]
      rfl
    have hsrows : ∀ r ∈ soln, r.length = 3 := by
      intro r hr
      rw [(hs2 r hr).1, hm1]
    have hsoln : soln = lst1For t := by
      apply matmul_cancel3 mkey _ _ hm1 hm2 hslen hsrows hl1.1 hl1.2 hdet
      rw [hs3]
    subst hsoln
    right
    rcases ht with h | h | h | ⟨c, hc1, -, -, h⟩ <;> subst h
    · rfl
    · rfl
    · rfl
    · rw [lst1For_lit c hc1]
      have hcb : (c : Int) ≤ 1114111 := by
        have := hbound c (by simp)
        omega
      simp only [List.headD_cons, List.getD_cons_succ, List.getD_cons_zero]
      rw [if_pos trivial, if_pos ⟨by omega, hcb⟩]
      simp

theorem getD_of_drop_cons {α : Type} :
    ∀ (l : List α) (n : Nat) (a : α) (t : List α) (d : α),
      l.drop n = a :: t → l.getD n d = a := by
  intro l
  induction l with
  | nil => intro n a t d h; simp at h
  | cons x l2 ih =>
    intro n a t d h
    cases n with
    | zero =>
      simp at h
      simp [h.1]
    | succ n2 =>
      rw [List.drop_succ_cons] at h
      rw [List.getD_cons_succ]
      exact ih n2 a t d h

theorem sortedTexts_get (lc : List (List (List Nat))) (cv : Nat) (hcv : cv < lc.length) :
    ((sortedIndices lc).map (fun p => p.2.join)).get? cv =
      some ((sortedIndices lc).getD cv (0, [])).2.join := by
  have hlen : cv < (sortedIndices lc).length := by
    rw [sortedIndices_length]
    exact hcv
  rw [List.get?_map, List.get?_eq_getElem?, List.getElem?_eq_getElem hlen,
    List.getD_eq_getElem _ _ hlen]
  rfl

theorem joinC (a : List Nat) (l : List (List Nat)) : (a :: l).join = a ++ l.join := rfl

theorem joinN : (([] : List (List Nat))).join = [] := rfl

theorem joinA : ∀ l1 l2 : List (List Nat), (l1 ++ l2).join = l1.join ++ l2.join := by
  intro l1
  induction l1 with
  | nil => intro l2; rfl
  | cons a l' ih =>
    intro l2
    simp only [List.cons_append, joinC, ih, List.append_assoc]

theorem except_bind_ok (x : List Nat) (f : List Nat → Except DErr (List Nat)) :
    (do
      let r ← (Except.ok x : Except DErr (List Nat))
      f r) = f x := rfl

theorem except_bind_error (e : DErr) (f : List Nat → Except DErr (List Nat)) :
    (do
      let r ← (Except.error e : Except DErr (List Nat))
      f r) = Except.error e := rfl

theorem scan_decode_aux (cq mq : Nat → Bool) (mkey : List (List Int))
    (divO : List (List Int) → List (List Int) → Option (List (List Int)))
    (hdiv : DivOValid divO)
    (hm1 : mkey.length = 3) (hm2 : ∀ r ∈ mkey, r.length = 3)
    (hdet : det3 mkey ≠ 0)
    (lcT : List (List (List Nat))) (hlcT : lcT.length < 997) :
    ∀ n toks i chunks, toks.length ≤ n →
      (∀ t ∈ toks, IsTok t ∧ ∀ x ∈ t, x ≤ 1114111) →
      chunks ≤ lcT.length →
      lcT.drop chunks = (scanLoop cq mq mkey i chunks toks).lc →
      ∀ r1, sub1 (matrix_fix divO mkey)
          (((scanLoop cq mq mkey i chunks toks).bd.map
            (rewritePart (sortedIndices lcT))).join) = Except.ok r1 →
        sub2 ((sortedIndices lcT).map (fun p => p.2.join)) r1 = Except.ok toks.join := by
  intro n
  induction n with
  | zero =>
    intro toks i chunks hlen htoks hch hdrop r1 h1
    have : toks = [] := List.eq_nil_of_length_eq_zero (by omega)
    subst this
    rw [scanLoop_nil] at h1
    simp only [List.map_nil] at h1
    rw [joinN, sub1_nil] at h1
    have : r1 = [] := by
      injection h1 with hh
      exact hh.symm
    subst this
    rfl
  | succ n2 ih =>
    intro toks i chunks hlen htoks hch hdrop r1 h1
    cases toks with
    | nil =>
      rw [scanLoop_nil] at h1
      simp only [List.map_nil] at h1
      rw [joinN, sub1_nil] at h1
      have : r1 = [] := by
        injection h1 with hh
        exact hh.symm
      subst this
      rfl
    | cons t rest =>
      have h997 : ¬ 997 ≤ chunks := by omega
      rw [scanLoop_cons] at hdrop h1
      rw [if_neg h997] at hdrop h1
      obtain ⟨htok, hbound⟩ := htoks t (by simp)
      by_cases hcq : 5 < (t :: rest).length ∧ cq i = true
      · -- chunk extraction: five tokens leave as a dictionary entry
        rw [if_pos hcq] at hdrop h1
        dsimp only at hdrop h1
        have hchlt : chunks < lcT.length := by
          by_contra hc2
          rw [List.drop_eq_nil_of_le (by omega)] at hdrop
          exact absurd hdrop.symm (by simp)
        have hdrop2 : lcT.drop (chunks + 1) =
            (scanLoop cq mq mkey (i + 5) (chunks + 1) ((t :: rest).drop 5)).lc := by
          have h := congrArg List.tail hdrop
          rw [List.tail_drop] at h
          simpa using h
        have hgetD : lcT.getD chunks [] = (t :: rest).take 5 :=
          getD_of_drop_cons lcT chunks _ _ [] hdrop
        obtain ⟨cv, hcvlt, hpaireq, hrweq⟩ :=
          rewritePart_ref lcT (chunks + 1) (by omega) (by omega)
        rw [show chunks + 1 - 1 = chunks from rfl, hgetD] at hpaireq
        rw [List.map_cons, joinC, hrweq] at h1
        have hno47 : ∀ x ∈ refPart (cv + 1), x ≠ 47 := by
          intro x hx
          unfold refPart at hx
          rcases List.mem_cons.mp hx with hx | hx
          · omega
          · exact (digit_clean x (pad3_digits _ x hx)).2
        rw [sub1_append_left _ _ _ hno47] at h1
        cases hsub : sub1 (matrix_fix divO mkey)
            (((scanLoop cq mq mkey (i + 5) (chunks + 1) ((t :: rest).drop 5)).bd.map
              (rewritePart (sortedIndices lcT))).join) with
        | error e =>
          rw [hsub] at h1
          exact absurd h1 (by simp [Except.map])
        | ok r2 =>
          rw [hsub] at h1
          simp only [Except.map] at h1
          have hr1 : r1 = refPart (cv + 1) ++ r2 := by
            injection h1 with hh
            exact hh.symm
          subst hr1
          have ihres := ih ((t :: rest).drop 5) (i + 5) (chunks + 1)
            (by simp at hlen ⊢; omega)
            (fun tk htk => htoks tk (List.mem_of_mem_drop htk))
            (by omega) hdrop2 r2 hsub
          obtain ⟨e1, e2, e3, hplist, hdig, hval⟩ := pad3_explicit (cv + 1) (by omega)
          have hres : reservedB e1 e2 e3 = false :=
            reservedB_rank e1 e2 e3 (by omega) (by omega)
          have hget : ((sortedIndices lcT).map (fun p => p.2.join)).get?
              (digitsVal [e1, e2, e3] - 1) = some ((t :: rest).take 5).join := by
            rw [hval, show cv + 1 - 1 = cv from rfl, sortedTexts_get lcT cv hcvlt,
              hpaireq]
          have hshape : refPart (cv + 1) ++ r2 = 64 :: e1 :: e2 :: e3 :: r2 := by
            unfold refPart
            rw [hplist]
            rfl
          rw [hshape, sub2_ref _ e1 e2 e3 r2 _ hdig hres hget, ihres]
          simp only [Except.map]
          have hjoin : ((t :: rest).take 5).join ++ ((t :: rest).drop 5).join =
              (t :: rest).join := by
            rw [← joinA, List.take_append_drop]
          rw [hjoin]
      · rw [if_neg hcq] at hdrop h1
        by_cases hmq : mq i = true
        · -- matrix branch: the part inverts back to the token
          rw [if_pos hmq] at hdrop h1
          dsimp only at hdrop h1
          have hrw : rewritePart (sortedIndices lcT) (matPart mkey t) = matPart mkey t := by
            unfold matPart
            exact rewritePart_not64 _ 47 _ (by omega)
          rw [List.map_cons, joinC, hrw] at h1
          have hmp : matPart mkey t ++ ((scanLoop cq mq mkey (i + 1) chunks rest).bd.map
              (rewritePart (sortedIndices lcT))).join =
              47 :: (reprMat (matmul (lst1For t) mkey) ++ 47 ::
                ((scanLoop cq mq mkey (i + 1) chunks rest).bd.map
                  (rewritePart (sortedIndices lcT))).join) := by
            unfold matPart
            simp
          rw [hmp] at h1
          have hMne : reprMat (matmul (lst1For t) mkey) ≠ [] := by
            unfold reprMat
            simp
          rw [sub1_cons_close _ _ _ _
            (findClose_of_clean _ hMne (reprMat_clean _) _)] at h1
          rcases matrix_fix_token divO hdiv mkey hm1 hm2 hdet t htok hbound with hfix | hfix
          · rw [hfix, except_bind_error] at h1
            exact absurd h1 (by simp)
          · rw [hfix, except_bind_ok] at h1
            cases hsub : sub1 (matrix_fix divO mkey)
                (((scanLoop cq mq mkey (i + 1) chunks rest).bd.map
                  (rewritePart (sortedIndices lcT))).join) with
            | error e =>
              rw [hsub, except_bind_error] at h1
              exact absurd h1 (by simp)
            | ok r2 =>
              rw [hsub, except_bind_ok] at h1
              have hr1 : r1 = t ++ r2 := by
                injection h1 with hh
                exact hh.symm
              subst hr1
              have ihres := ih rest (i + 1) chunks (by simp at hlen; omega)
                (fun tk htk => htoks tk (by simp [htk])) hch hdrop r2 hsub
              rw [joinC]
              rcases htok with h | h | h | ⟨c, hc1, -, -, h⟩ <;> subst h
              · rw [show ([64, 48, 48, 48] : List Nat) ++ r2 =
                  64 :: 48 :: 48 :: 48 :: r2 from rfl,
                  sub2_reserved _ 48 48 48 r2 (by decide) (by decide), ihres]
                rfl
              · rw [show ([64, 57, 57, 57] : List Nat) ++ r2 =
                  64 :: 57 :: 57 :: 57 :: r2 from rfl,
                  sub2_reserved _ 57 57 57 r2 (by decide) (by decide), ihres]
                rfl
              · rw [show ([64, 57, 57, 56] : List Nat) ++ r2 =
                  64 :: 57 :: 57 :: 56 :: r2 from rfl,
                  sub2_reserved _ 57 57 56 r2 (by decide) (by decide), ihres]
                rfl
              · rw [show ([c] : List Nat) ++ r2 = c :: r2 from rfl,
                  sub2_cons_notat _ c r2 hc1, ihres]
                rfl
        · -- literal branch: the token passes through
          rw [if_neg hmq] at hdrop h1
          dsimp only at hdrop h1
          have hrw : rewritePart (sortedIndices lcT) t = t := by
            rcases htok with h | h | h | ⟨c, hc1, -, -, h⟩ <;> subst h
            · exact rewritePart_escape lcT (by omega) _ (by simp)
            · exact rewritePart_escape lcT (by omega) _ (by simp)
            · exact rewritePart_escape lcT (by omega) _ (by simp)
            · exact rewritePart_not64 _ c _ hc1
          rw [List.map_cons, joinC, hrw] at h1
          rw [sub1_append_left _ _ _ (fun x hx => (tok_clean t htok x hx).2)] at h1
          cases hsub : sub1 (matrix_fix divO mkey)
              (((scanLoop cq mq mkey (i + 1) chunks rest).bd.map
                (rewritePart (sortedIndices lcT))).join) with
          | error e =>
            rw [hsub] at h1
            exact absurd h1 (by simp [Except.map])
          | ok r2 =>
            rw [hsub] at h1
            simp only [Except.map] at h1
            have hr1 : r1 = t ++ r2 := by
              injection h1 with hh
              exact hh.symm
            subst hr1
            have ihres := ih rest (i + 1) chunks (by simp at hlen; omega)
              (fun tk htk => htoks tk (by simp [htk])) hch hdrop r2 hsub
            rw [joinC]
            rcases htok with h | h | h | ⟨c, hc1, -, -, h⟩ <;> subst h
            · rw [show ([64, 48, 48, 48] : List Nat) ++ r2 =
                64 :: 48 :: 48 :: 48 :: r2 from rfl,
                sub2_reserved _ 48 48 48 r2 (by decide) (by decide), ihres]
              rfl
            · rw [show ([64, 57, 57, 57] : List Nat) ++ r2 =
                64 :: 57 :: 57 :: 57 :: r2 from rfl,
                sub2_reserved _ 57 57 57 r2 (by decide) (by decide), ihres]
              rfl
            · rw [show ([64, 57, 57, 56] : List Nat) ++ r2 =
                64 :: 57 :: 57 :: 56 :: r2 from rfl,
                sub2_reserved _ 57 57 56 r2 (by decide) (by decide), ihres]
              rfl
            · rw [show ([c] : List Nat) ++ r2 = c :: r2 from rfl,
                sub2_cons_notat _ c r2 hc1, ihres]
              rfl

theorem hd_split (lc : List (List (List Nat)))
    (htoks : ∀ ch ∈ lc, ∀ t ∈ ch, IsTok t) :
    pySplit 47 ((lc.map (fun ch => ch.join ++ [47])).join) =
      lc.map List.join ++ [[]] := by
  induction lc with
  | nil => rfl
  | cons ch lc2 ih =>
    rw [List.map_cons, joinC]
    have hassoc : (ch.join ++ [47]) ++ ((lc2.map (fun ch => ch.join ++ [47])).join) =
        ch.join ++ 47 :: ((lc2.map (fun ch => ch.join ++ [47])).join) := by
      simp
    rw [hassoc, pySplit_append_nosep 47 _ _ ?clean]
    case clean =>
      intro x hx
      obtain ⟨tk, htk, hxtk⟩ := List.mem_join.mp hx
      exact (tok_clean tk (htoks ch (by simp) tk htk) x hxtk).2
    rw [ih (fun c hc => htoks c (by simp [hc]))]
    rfl

theorem hd_join_clean (lc : List (List (List Nat)))
    (htoks : ∀ ch ∈ lc, ∀ t ∈ ch, IsTok t) :
    ∀ x ∈ ((lc.map (fun ch => ch.join ++ [47])).join), x ≠ 10 := by
  intro x hx
  obtain ⟨part, hpart, hxp⟩ := List.mem_join.mp hx
  rw [List.mem_map] at hpart
  obtain ⟨ch, hch, hchp⟩ := hpart
  rw [← hchp] at hxp
  rcases List.mem_append.mp hxp with h | h
  · obtain ⟨tk, htk, hxtk⟩ := List.mem_join.mp h
    exact (tok_clean tk (htoks ch hch tk htk) x hxtk).1
  · simp at h
    omega

theorem bd_join_clean (cq mq : Nat → Bool) (mkey : List (List Int))
    (toks : List (List Nat)) (htoks : ∀ t ∈ toks, IsTok t)
    (lcT : List (List (List Nat))) :
    ∀ x ∈ (((scanLoop cq mq mkey 0 0 toks).bd.map
        (rewritePart (sortedIndices lcT))).join), x ≠ 10 := by
  intro x hx
  obtain ⟨part, hpart, hxp⟩ := List.mem_join.mp hx
  rw [List.mem_map] at hpart
  obtain ⟨p0, hp0, hp0rw⟩ := hpart
  have hshape := scanLoop_bd_parts cq mq mkey toks.length toks 0 0 (le_refl _) htoks p0 hp0
  rcases rewritePart_cases lcT p0 with hrw | ⟨cv, -, hrw⟩
  · rw [hrw] at hp0rw
    rw [← hp0rw] at hxp
    rcases hshape with ⟨k, -, -, hp⟩ | ⟨tok, htk, hp | hp⟩
    · rw [hp] at hxp
      unfold refPart at hxp
      rcases List.mem_cons.mp hxp with h | h
      · omega
      · exact (digit_clean x (pad3_digits _ x h)).1
    · rw [hp] at hxp
      exact (tok_clean tok htk x hxp).1
    · rw [hp] at hxp
      unfold matPart at hxp
      rcases List.mem_cons.mp hxp with h | h
      · omega
      · rcases List.mem_append.mp h with h | h
        · exact (reprMat_clean _ x h).1
        · simp at h
          omega
  · rw [hrw] at hp0rw
    rw [← hp0rw] at hxp
    rcases List.mem_cons.mp hxp with h | h
    · omega
    · exact (digit_clean x (pad3_digits _ x h)).1

theorem ft_join_clean (cq mq : Nat → Bool) (mkey : List (List Int))
    (toks : List (List Nat)) (i chunks : Nat) :
    ∀ x ∈ ((scanLoop cq mq mkey i chunks toks).ft.join), x ≠ 10 := by
  intro x hx
  obtain ⟨part, hpart, hxp⟩ := List.mem_join.mp hx
  rw [show (scanLoop cq mq mkey i chunks toks).ft =
    (scanLoopF cq mq mkey toks.length i chunks toks).ft from rfl,
    (scanLoopF_head_foot cq mq mkey toks.length i chunks toks).2] at hpart
  rw [List.mem_map] at hpart
  obtain ⟨ch, -, hchp⟩ := hpart
  rw [← hchp] at hxp
  exact securehash_clean _ x hxp

/-- C1 amended: the pipeline round-trips under two additional conditions
the original claim is missing: the randomly drawn 3 x 3 matrix key must be
invertible (a singular key makes the matrix division non-unique and the
decoder can reconstruct different text), and the scan must extract fewer
than 997 chunks (at the cap the loop breaks and silently drops the rest of
the input).  Under those conditions, for every plaintext of valid code
points, every outcome of the random draws and every pair of valid
terminating oracle runs, a successful decompression returns exactly the
original text. -/
theorem compress_roundtrip_conditional
    (s key : List Nat) (mkey : List (List Int)) (cq mq : Nat → Bool)
    (divO : List (List Int) → List (List Int) → Option (List (List Int)))
    (decO : List Nat → List Nat → Option (List Nat)) (out : List Nat)
    (hs : ∀ c ∈ s, c ≤ 1114111)
    (hch : ValidCompressChoices key mkey)
    (hdet : det3 mkey ≠ 0)
    (hnotrunc : (s_compressParts key mkey cq mq s).lChunks.length < 997)
    (hdiv : DivOValid divO) (hdec : DecOValid decO)
    (hrun : s_decompress divO decO (s_compress key mkey cq mq s) = Except.ok out) :
    out = s := by
  have hm1 : mkey.length = 3 := hch.2.1
  have hm2 : ∀ r ∈ mkey, r.length = 3 := fun r hr => (hch.2.2 r hr).1
  have hkeyf := keyChoices_clean key hch.1
  have htoksP := toks_prop s key hs (fun k hk => by have := (hkeyf k hk).2.2; omega)
  have htoksI : ∀ t ∈ (s_encrypt s key).map escapeTok, IsTok t :=
    fun t ht => (htoksP t ht).1
  have hlcT : (scanLoop cq mq mkey 0 0 ((s_encrypt s key).map escapeTok)).lc.length < 997 :=
    hnotrunc
  have hlctoks : ∀ ch ∈ (scanLoop cq mq mkey 0 0 ((s_encrypt s key).map escapeTok)).lc,
      ∀ t ∈ ch, IsTok t :=
    scanLoop_lc_prop cq mq mkey IsTok ((s_encrypt s key).map escapeTok).length _ 0 0
      (le_refl _) htoksI
  have hhd : (scanLoop cq mq mkey 0 0 ((s_encrypt s key).map escapeTok)).hd =
      (scanLoop cq mq mkey 0 0 ((s_encrypt s key).map escapeTok)).lc.map
        (fun ch => ch.join ++ [47]) :=
    (scanLoopF_head_foot cq mq mkey ((s_encrypt s key).map escapeTok).length 0 0
      ((s_encrypt s key).map escapeTok)).1
  have hart : s_compress key mkey cq mq s =
      versionPart ++ ((key ++ 47 :: (reprMat mkey ++ 47 ::
          ((scanLoop cq mq mkey 0 0 ((s_encrypt s key).map escapeTok)).lc.map
            (fun ch => ch.join ++ [47])).join)) ++
        10 :: ((((scanLoop cq mq mkey 0 0 ((s_encrypt s key).map escapeTok)).bd.map
            (rewritePart (sortedIndices
              (scanLoop cq mq mkey 0 0 ((s_encrypt s key).map escapeTok)).lc))).join) ++
          10 :: ((scanLoop cq mq mkey 0 0 ((s_encrypt s key).map escapeTok)).ft.join))) := by
    rw [show s_compress key mkey cq mq s =
      ([versionPart, key ++ [47], reprMat mkey ++ [47]] ++
          (scanLoop cq mq mkey 0 0 ((s_encrypt s key).map escapeTok)).hd).join ++
        10 :: ((((scanLoop cq mq mkey 0 0 ((s_encrypt s key).map escapeTok)).bd.map
            (rewritePart (sortedIndices
              (scanLoop cq mq mkey 0 0 ((s_encrypt s key).map escapeTok)).lc))).join) ++
          10 :: ((scanLoop cq mq mkey 0 0 ((s_encrypt s key).map escapeTok)).ft.join))
      from rfl]
    rw [hhd]
    simp [joinA, joinC, joinN]
  have htake3 : (s_compress key mkey cq mq s).take 3 = versionPart := by
    rw [hart, show (3 : Nat) = versionPart.length from rfl]
    exact List.take_left versionPart _
  have hdrop3 : (s_compress key mkey cq mq s).drop 3 =
      (key ++ 47 :: (reprMat mkey ++ 47 ::
          ((scanLoop cq mq mkey 0 0 ((s_encrypt s key).map escapeTok)).lc.map
            (fun ch => ch.join ++ [47])).join)) ++
        10 :: ((((scanLoop cq mq mkey 0 0 ((s_encrypt s key).map escapeTok)).bd.map
            (rewritePart (sortedIndices
              (scanLoop cq mq mkey 0 0 ((s_encrypt s key).map escapeTok)).lc))).join) ++
          10 :: ((scanLoop cq mq mkey 0 0 ((s_encrypt s key).map escapeTok)).ft.join)) := by
    rw [hart, show (3 : Nat) = versionPart.length from rfl]
    exact List.drop_left _ _
  have hHsclean : ∀ x ∈ (key ++ 47 :: (reprMat mkey ++ 47 ::
      ((scanLoop cq mq mkey 0 0 ((s_encrypt s key).map escapeTok)).lc.map
        (fun ch => ch.join ++ [47])).join)), x ≠ 10 := by
    intro x hx
    rcases List.mem_append.mp hx with h | h
    · exact (hkeyf x h).1
    · rcases List.mem_cons.mp h with h | h
      · omega
      · rcases List.mem_append.mp h with h | h
        · exact (reprMat_clean mkey x h).1
        · rcases List.mem_cons.mp h with h | h
          · omega
          · exact hd_join_clean _ hlctoks x h
  have hBjclean := bd_join_clean cq mq mkey ((s_encrypt s key).map escapeTok) htoksI
    (scanLoop cq mq mkey 0 0 ((s_encrypt s key).map escapeTok)).lc
  have hFtclean := ft_join_clean cq mq mkey ((s_encrypt s key).map escapeTok) 0 0
  have hsplit47E : pySplit 47 (key ++ 47 :: (reprMat mkey ++ 47 ::
      ((scanLoop cq mq mkey 0 0 ((s_encrypt s key).map escapeTok)).lc.map
        (fun ch => ch.join ++ [47])).join)) =
      key :: reprMat mkey ::
        ((scanLoop cq mq mkey 0 0 ((s_encrypt s key).map escapeTok)).lc.map List.join
          ++ [[]]) := by
    rw [pySplit_append_nosep 47 _ _ (fun x hx => (hkeyf x hx).2.1)]
    rw [pySplit_append_nosep 47 _ _ (fun x hx => (reprMat_clean mkey x hx).2)]
    rw [hd_split _ hlctoks]
  have hmne : mkey ≠ [] := by
    intro h
    rw [h] at hm1
    simp at hm1
  have hmrows : ∀ r ∈ mkey, r ≠ [] := by
    intro r hr h
    have := hm2 r hr
    rw [h] at this
    simp at this
  unfold s_decompress at hrun
  rw [htake3, show pyInt versionPart = some 1 from rfl] at hrun
  dsimp only at hrun
  rw [hdrop3, pySplit_append_nosep 10 _ _ hHsclean,
    pySplit_append_nosep 10 _ _ hBjclean, pySplit_nosep 10 _ hFtclean] at hrun
  dsimp only at hrun
  rw [hsplit47E] at hrun
  dsimp only at hrun
  rw [parseMat_reprMat mkey hmne hmrows] at hrun
  dsimp only at hrun
  rw [List.dropLast_concat, sortedTexts_eq _ hlctoks] at hrun
  cases hsub1 : sub1 (matrix_fix divO mkey)
      (((scanLoop cq mq mkey 0 0 ((s_encrypt s key).map escapeTok)).bd.map
        (rewritePart (sortedIndices
          (scanLoop cq mq mkey 0 0 ((s_encrypt s key).map escapeTok)).lc))).join) with
  | error e =>
    rw [hsub1] at hrun
    dsimp only at hrun
    exact absurd hrun (by simp)
  | ok b1 =>
    rw [hsub1] at hrun
    dsimp only at hrun
    have hs2 := scan_decode_aux cq mq mkey divO hdiv hm1 hm2 hdet
      (scanLoop cq mq mkey 0 0 ((s_encrypt s key).map escapeTok)).lc hlcT
      ((s_encrypt s key).map escapeTok).length ((s_encrypt s key).map escapeTok) 0 0
      (le_refl _) htoksP (by omega) (List.drop_zero _) b1 hsub1
    rw [hs2] at hrun
    dsimp only at hrun
    rw [sub3_escape_join (s_encrypt s key)] at hrun
    cases hdecO : decO (s_encrypt s key) key with
    | none =>
      rw [hdecO] at hrun
      dsimp only at hrun
      exact absurd hrun (by simp)
    | some p =>
      rw [hdecO] at hrun
      dsimp only at hrun
      have hp : p = out := by injection hrun
      have hrel := hdec _ _ _ hdecO
      rw [← hp]
      exact s_encrypt_inj key p s hrel.2.2

/-- Witness for compress_roundtrip_conditional: compressing the character
9 under the key !wes! and the invertible matrix key with both random draws
declining, then decompressing with valid oracles, returns exactly the
original text. -/
theorem compress_roundtrip_conditional_witness :
    (∀ c ∈ ([57] : List Nat), c ≤ 1114111) ∧
    ValidCompressChoices [33, 119, 101, 115, 33] [[2, 1, 1], [1, 2, 1], [1, 1, 2]] ∧
    det3 [[2, 1, 1], [1, 2, 1], [1, 1, 2]] ≠ 0 ∧
    (s_compressParts [33, 119, 101, 115, 33] [[2, 1, 1], [1, 2, 1], [1, 1, 2]]
      (fun _ => false) (fun _ => false) [57]).lChunks.length < 997 ∧
    ([57] : List Nat) = [57] := by
  have hch : ValidCompressChoices [33, 119, 101, 115, 33]
      [[2, 1, 1], [1, 2, 1], [1, 1, 2]] := by
    unfold ValidCompressChoices
    decide
  have hdiv : DivOValid (fun _ _ => none) := by
    intro c b cand h
    simp at h
  have hdec : DecOValid (fun e k =>
      if e = [67, 57] ∧ k = [33, 119, 101, 115, 33] then some [57] else none) := by
    intro e k p h
    dsimp only at h
    by_cases hc : e = [67, 57] ∧ k = [33, 119, 101, 115, 33]
    · rw [if_pos hc] at h
      obtain ⟨hc1, hc2⟩ := hc
      subst hc1
      subst hc2
      have hp : p = [57] := by
        injection h with hh
        exact hh.symm
      subst hp
      refine ⟨by decide, ?_, by decide⟩
      intro j hj
      have h0 : j = 0 := Nat.lt_one_iff.mp (by simpa using hj)
      subst h0
      decide
    · rw [if_neg hc] at h
      exact absurd h (by simp)
  refine ⟨by decide, hch, by decide, by decide, ?_⟩
  exact compress_roundtrip_conditional [57] [33, 119, 101, 115, 33]
    [[2, 1, 1], [1, 2, 1], [1, 1, 2]] (fun _ => false) (fun _ => false)
    (fun _ _ => none)
    (fun e k => if e = [67, 57] ∧ k = [33, 119, 101, 115, 33] then some [57] else none)
    [57] (by decide) hch (by decide) (by decide) hdiv hdec (by rfl)
